import Mathlib

/-!
# A verification model of the explorePico firmware update supervisor

This file gives a shallow embedding, in Lean 4, of the self-update
machinery of the explorePico firmware:

* `PyStr` — models of the MicroPython string operations the updaters use
  (`strip`, `split`, `int(...)`, lexicographic string comparison).
* `UpdaterUtils` — the shared utilities of `updater_utils.py`
  (`parse_version`, `compare_versions`, `list_python_files`,
  `create_backup`, `restore_backup`, `cleanup_backup`, `perform_rollback`).
* `SdUpdater` — the SD-card updater of `sd_updater.py` (its own
  `create_backup`/`restore_backup`/`cleanup_backup`, `apply_update`,
  `perform_rollback`, `check_and_apply_update`).
* `GithubUpdater` — the network updater of `github_updater.py`
  (`FILES_TO_UPDATE`, `get_all_py_files`, `get_latest_release`,
  `download_and_update`, `check_and_update`).
* `Boot` — the module-level boot sequence of `boot.py`.

The filesystem is modelled as a finite map from canonical paths
(lists of characters, without the leading `/` of the device root) to file
contents, together with the set of existing directories.  MicroPython
`uos` primitives (`listdir`, `mkdir`, `rmdir`, `remove`, `stat`,
`open(..)`) are modelled as `Option`-valued operations: `none` models a
raised `OSError`; every `try/except` of the Python source becomes a
`match` on the corresponding `Option`.  Network and SD availability,
HTTP responses and file contents fetched from GitHub are oracle
parameters.  Logging, LED blinking and `time.sleep` are side-effect-only
and are dropped; `machine.reset()` and the externally observable actions
of an update attempt are recorded in an event trace (`Ev`).
-/

namespace PyStr

/-- Characters treated as whitespace by Python's default `str.strip()`. -/
def isPyWs (c : Char) : Bool :=
  c == ' ' || c == '\t' || c == '\n' || c == '\r' || c == '\x0b' || c == '\x0c'

/-- Model of Python `str.strip()` on the character list of a string. -/
def stripWs (l : List Char) : List Char :=
  ((l.dropWhile isPyWs).reverse.dropWhile isPyWs).reverse

/-- Model of Python `str.split(".")`: split on `'.'`, keeping empty pieces
(`"".split(".") == [""]`). -/
def splitOnDot : List Char → List (List Char)
  | [] => [[]]
  | c :: cs =>
    let r := splitOnDot cs
    if c = '.' then [] :: r
    else
      match r with
      | [] => [[c]]
      | h :: t => (c :: h) :: t

/-- Accumulating decimal-digit parser used by `pyInt`. -/
def digitsCore : List Char → Nat → Option Nat
  | [], acc => some acc
  | c :: cs, acc =>
    if c.isDigit then digitsCore cs (acc * 10 + (c.toNat - 48)) else none

/-- Value of a non-empty all-digit character list; `none` otherwise. -/
def digitsVal (l : List Char) : Option Nat :=
  if l = [] then none else digitsCore l 0

/-- Model of Python `int(s)` on decimal literals: surrounding whitespace is
ignored, one optional sign is allowed, the rest must be a non-empty digit
string; `none` models a raised `ValueError`. -/
def pyInt (l : List Char) : Option Int :=
  match stripWs l with
  | '-' :: rest => (digitsVal rest).map (fun n => -(n : Int))
  | '+' :: rest => (digitsVal rest).map (fun n => (n : Int))
  | t => (digitsVal t).map (fun n => (n : Int))

/-- Python's lexicographic `<` on strings (by code point). -/
def pyStrLt : List Char → List Char → Bool
  | [], [] => false
  | [], _ :: _ => true
  | _ :: _, [] => false
  | a :: as, b :: bs => if a < b then true else if a = b then pyStrLt as bs else false

/-- Python's `<=` on strings, as the negation of the reversed `<`. -/
def pyStrLe (a b : List Char) : Bool := !(pyStrLt b a)

end PyStr

namespace UpdaterUtils

open PyStr

/-- `updater_utils.parse_version`: strip every `'v'`, strip whitespace, split
on `'.'`, read up to three integer components (missing ones default to 0);
any parse failure degrades the whole version to `(0, 0, 0)`. -/
def parse_version (version : String) : Int × Int × Int :=
  let v := stripWs ((version.data).filter (fun c => !(c == 'v')))
  let parts := splitOnDot v
  let major? := pyInt (parts.getD 0 [])
  let minor? := if 1 < parts.length then pyInt (parts.getD 1 []) else some 0
  let patch? := if 2 < parts.length then pyInt (parts.getD 2 []) else some 0
  match major?, minor?, patch? with
  | some a, some b, some c => (a, b, c)
  | _, _, _ => (0, 0, 0)

/-- Python's lexicographic `>` on integer triples (tuple comparison). -/
def tupGt : Int × Int × Int → Int × Int × Int → Bool
  | (a1, a2, a3), (b1, b2, b3) =>
    decide (b1 < a1) ||
      (decide (a1 = b1) && (decide (b2 < a2) || (decide (a2 = b2) && decide (b3 < a3))))

/-- `updater_utils.compare_versions(current, new)`: `1` if `new` parses
strictly greater than `current`, `0` if equal, `-1` otherwise. -/
def compare_versions (current new : String) : Int :=
  let current_tuple := parse_version current
  let new_tuple := parse_version new
  if tupGt new_tuple current_tuple then 1
  else if new_tuple = current_tuple then 0
  else -1

lemma tupGt_irrefl (x : Int × Int × Int) : tupGt x x = false := by
  rcases x with ⟨a, b, c⟩
  simp [tupGt]

lemma tupGt_asymm {x y : Int × Int × Int} (h : tupGt x y = true) : tupGt y x = false := by
  rcases x with ⟨a1, a2, a3⟩
  rcases y with ⟨b1, b2, b3⟩
  simp only [tupGt, Bool.or_eq_true, Bool.and_eq_true, decide_eq_true_eq] at h ⊢
  simp only [Bool.or_eq_false_iff, Bool.and_eq_false_iff,
    decide_eq_false_iff_not, not_lt] at *
  omega

lemma tupGt_ne {x y : Int × Int × Int} (h : tupGt x y = true) : x ≠ y := by
  intro hxy
  subst hxy
  rw [tupGt_irrefl] at h
  exact Bool.false_ne_true h

lemma tupGt_trichot (x y : Int × Int × Int) :
    tupGt x y = true ∨ x = y ∨ tupGt y x = true := by
  rcases x with ⟨a1, a2, a3⟩
  rcases y with ⟨b1, b2, b3⟩
  simp only [tupGt, Bool.or_eq_true, Bool.and_eq_true, decide_eq_true_eq,
    Prod.mk.injEq]
  omega

/-- `compare_versions` written out on the parsed tuples. -/
lemma compare_versions_eq (a b : String) :
    compare_versions a b =
      (if tupGt (parse_version b) (parse_version a) = true then 1
       else if parse_version b = parse_version a then 0 else -1) := rfl

lemma cmp_tuple_antisymm (x y : Int × Int × Int) :
    (if tupGt y x = true then (1 : Int) else if y = x then 0 else -1) =
      -(if tupGt x y = true then (1 : Int) else if x = y then 0 else -1) := by
  rcases tupGt_trichot x y with h | h | h
  · simp [tupGt_asymm h, h, Ne.symm (tupGt_ne h)]
  · subst h
    simp [tupGt_irrefl]
  · simp [tupGt_asymm h, h, Ne.symm (tupGt_ne h)]

end UpdaterUtils

/-- Claim C8: for all version strings `a`, `b` (including unparseable ones),
`compare_versions a b = -(compare_versions b a)` and
`compare_versions a a = 0`. -/
theorem C8_compare_antisymmetric_and_reflexive (a b : String) :
    UpdaterUtils.compare_versions a b = -(UpdaterUtils.compare_versions b a) ∧
      UpdaterUtils.compare_versions a a = 0 := by
  constructor
  · rw [UpdaterUtils.compare_versions_eq a b, UpdaterUtils.compare_versions_eq b a]
    exact UpdaterUtils.cmp_tuple_antisymm _ _
  · rw [UpdaterUtils.compare_versions_eq a a, UpdaterUtils.tupGt_irrefl,
      if_neg (Bool.false_ne_true), if_pos rfl]

/-- Claim C9 counterexample: with the spec's argument order,
`compare("v1.2.0", "1.10.0")` does NOT return `-1` (the code returns `1`,
because `compare_versions(current, new)` is positive when its SECOND
argument is the newer version — the opposite sign convention from the
spec's `compare(a, b)` examples). -/
theorem C9_counterexample_sign_convention :
    UpdaterUtils.compare_versions "v1.2.0" "1.10.0" ≠ -1 := by decide

/-- Claim C9 amended: on the spec's concrete inputs, in the spec's argument
order, the code's `compare_versions` yields `0`, `1`, `-1`, `1` — i.e. the
equality case agrees, and each strict case has the opposite sign from the
spec's expected value (`compare_versions(a, b)` is the sign of `b - a`
on parsed versions, `+1` meaning the second argument is strictly newer;
an unparseable string still degrades to the lowest version `(0,0,0)`). -/
theorem C9_amended_concrete_comparisons :
    UpdaterUtils.compare_versions "1.7" "1.7.0" = 0 ∧
      UpdaterUtils.compare_versions "v1.2.0" "1.10.0" = 1 ∧
      UpdaterUtils.compare_versions "2" "1.9.9" = -1 ∧
      UpdaterUtils.compare_versions "garbage" "1.0.0" = 1 ∧
      UpdaterUtils.parse_version "garbage" = (0, 0, 0) := by decide

namespace FSys

/-- `startsWithL pre l` : `l` begins with the character list `pre`. -/
def startsWithL : List Char → List Char → Bool
  | [], _ => true
  | _ :: _, [] => false
  | a :: as, b :: bs => if a = b then startsWithL as bs else false

/-- `endsWithL suf l` : `l` ends with the character list `suf`. -/
def endsWithL (suf l : List Char) : Bool := startsWithL suf.reverse l.reverse

/-- Canonical form of a device path: the MicroPython current directory is
the flash root `/`, so `"."` and a leading `/` both denote the root; a
canonical path is root-relative with no leading slash. -/
def canonL : List Char → List Char
  | ['.'] => []
  | '/' :: rest => rest
  | l => l

/-- Canonical path of a source-level path string. -/
def canonP (p : String) : List Char := canonL p.data

/-- Split a path at its last `'/'`: `some (parent, name)`, or `none` when the
path has no slash (its parent is the root). -/
def splitLastSlash : List Char → Option (List Char × List Char)
  | [] => none
  | c :: cs =>
    match splitLastSlash cs with
    | some (p, n) => some (c :: p, n)
    | none => if c = '/' then some ([], cs) else none

/-- Parent directory of a canonical path (`[]` is the root). -/
def parentL (q : List Char) : List Char :=
  match splitLastSlash q with
  | some (p, _) => p
  | none => []

/-- If `q` is an immediate child of directory `d`, its entry name. -/
def childName? (d q : List Char) : Option (List Char) :=
  match splitLastSlash q with
  | none => if d = [] ∧ q ≠ [] then some q else none
  | some (p, n) => if p = d then some n else none

/-- First-match association-list lookup (path to file content). -/
def lookupA : List (List Char × String) → List Char → Option String
  | [], _ => none
  | (k, v) :: t, p => if k = p then some v else lookupA t p

/-- Overwrite-in-place update; appends when the key is absent. -/
def updateA : List (List Char × String) → List Char → String → List (List Char × String)
  | [], p, c => [(p, c)]
  | (k, v) :: t, p, c => if k = p then (p, c) :: t else (k, v) :: updateA t p c

/-- Remove every binding of a key. -/
def removeA : List (List Char × String) → List Char → List (List Char × String)
  | [], _ => []
  | (k, v) :: t, p => if k = p then removeA t p else (k, v) :: removeA t p

/-- The device filesystem: file contents keyed by canonical path, plus the
set of existing directories (the root `[]` always exists implicitly). -/
structure FS where
  files : List (List Char × String)
  dirs : List (List Char)
deriving DecidableEq, Repr

/-- `open(p, "r").read()`: `none` models a raised `OSError` (no such file,
or the path names a directory). -/
def FS.openR (fs : FS) (p : String) : Option String :=
  lookupA fs.files (canonP p)

/-- `open(p, "w").write(content)`: creates or truncates; fails when the path
names a directory or its parent directory does not exist. -/
def FS.openW (fs : FS) (p : String) (content : String) : Option FS :=
  let q := canonP p
  if q ∈ fs.dirs then none
  else if parentL q = [] ∨ parentL q ∈ fs.dirs then
    some { fs with files := updateA fs.files q content }
  else none

/-- `uos.mkdir(p)`: fails when the path already exists (as directory or
file) or the parent directory does not exist. -/
def FS.mkdir (fs : FS) (p : String) : Option FS :=
  let q := canonP p
  if q ∈ fs.dirs then none
  else if (lookupA fs.files q).isSome then none
  else if q = [] then none
  else if parentL q = [] ∨ parentL q ∈ fs.dirs then
    some { fs with dirs := fs.dirs ++ [q] }
  else none

/-- `uos.rmdir(p)`: fails when the path is not a directory or the directory
is not empty. -/
def FS.rmdir (fs : FS) (p : String) : Option FS :=
  let q := canonP p
  if q ∈ fs.dirs then
    if fs.files.any (fun kv => startsWithL (q ++ ['/']) kv.1) ||
        fs.dirs.any (fun e => startsWithL (q ++ ['/']) e) then none
    else some { fs with dirs := fs.dirs.filter (fun e => decide (e ≠ q)) }
  else none

/-- `uos.remove(p)`: unlink; fails when the path is not an existing file
(in particular when it names a directory). -/
def FS.remove (fs : FS) (p : String) : Option FS :=
  let q := canonP p
  if (lookupA fs.files q).isSome then some { fs with files := removeA fs.files q }
  else none

/-- `uos.stat(p)[0] & 0x4000`: `some true` for a directory, `some false` for
a file, `none` when `stat` raises (path absent). -/
def FS.statIsDir (fs : FS) (p : String) : Option Bool :=
  let q := canonP p
  if q = [] ∨ q ∈ fs.dirs then some true
  else if (lookupA fs.files q).isSome then some false
  else none

/-- `uos.listdir(p)`: entry names of the immediate children (files first,
then directories, each in storage order); `none` when the directory does
not exist. -/
def FS.listdir (fs : FS) (p : String) : Option (List String) :=
  let q := canonP p
  if q = [] ∨ q ∈ fs.dirs then
    some ((fs.files.filterMap fun kv => (childName? q kv.1).map fun n => (⟨n⟩ : String)) ++
      (fs.dirs.filterMap fun e => (childName? q e).map fun n => (⟨n⟩ : String)))
  else none

end FSys

/-- Update-source tags for trace events. -/
inductive Source
  | github
  | sd
deriving DecidableEq, Repr

/-- Observable events of an update attempt, recorded in order. -/
inductive Ev
  /-- `create_backup` was invoked and returned the given result. -/
  | backupCall (ok : Bool)
  /-- A file was successfully written to its live path by the apply loop. -/
  | wroteLive (path : String)
  /-- `restore_backup` was invoked and returned the given result. -/
  | restoreCall (ok : Bool)
  /-- `cleanup_backup` was invoked. -/
  | cleanupCall
  /-- `write_version` persisted the given version string. -/
  | versionWritten (v : String)
  /-- `machine.reset()` was requested. -/
  | rebootRequested
  /-- The apply/download phase of the given source started. -/
  | applyStarted (src : Source)
  /-- The boot sequence consulted the SD-card update source. -/
  | checkedSd
deriving DecidableEq, Repr

namespace UpdaterUtils

open FSys

/-- `updater_utils.VERSION_FILE`. -/
def VERSION_FILE : String := "/.version"

/-- `updater_utils.BACKUP_FOLDER`. -/
def BACKUP_FOLDER : String := "/backup"

/-- `updater_utils.EXCLUDE_FILES`. -/
def EXCLUDE_FILES : List String := [".version", "secrets.py"]

/-- `updater_utils.read_version`: read and strip `/.version`; any I/O error
reads as absent. -/
def read_version (fs : FS) : Option String :=
  (fs.openR VERSION_FILE).map fun s => (⟨PyStr.stripWs s.data⟩ : String)

/-- `updater_utils.write_version` (no exception handler in the source, so a
failed write is an uncaught exception, modelled as `none`). -/
def write_version (fs : FS) (version : String) : Option FS :=
  fs.openW VERSION_FILE version

/-- The recursive `scan_dir` inner function of
`updater_utils.list_python_files`, on an explicit entry list; `fuel` bounds
the recursion (the Python recursion terminates because the directory tree
is finite; every theorem below holds for every fuel value).  Hidden entries
and `__pycache__` are skipped; only subdirectories named `"sensors"` are
recursed into; files must end in `.py` and not be in `EXCLUDE_FILES`. -/
def scan_dir (fs : FS) : Nat → String → List String → List (String × String)
  | 0, _, _ => []
  | _ + 1, _, [] => []
  | fuel + 1, current_dir, entry :: rest =>
    let tail := scan_dir fs fuel current_dir rest
    if startsWithL ['.'] entry.data then tail
    else if entry = "__pycache__" then tail
    else
      let full_path := if current_dir ≠ "." then current_dir ++ "/" ++ entry else entry
      match fs.statIsDir full_path with
      | none => tail
      | some true =>
        if entry = "sensors" then
          match fs.listdir full_path with
          | none => tail
          | some subEntries => scan_dir fs fuel full_path subEntries ++ tail
        else tail
      | some false =>
        if endsWithL ".py".data entry.data ∧ entry ∉ EXCLUDE_FILES then
          (full_path, full_path) :: tail
        else tail

/-- `updater_utils.list_python_files`. -/
def list_python_files (fs : FS) (fuel : Nat) (root_dir : String) : List (String × String) :=
  match fs.listdir root_dir with
  | none => []
  | some entries => scan_dir fs fuel root_dir entries

/-- Body of the per-file `try/except` inside `create_backup`: read the
source, create the backup subdirectory when the destination has one, write
the copy; any failure is logged and skipped. -/
def backupFile (fs : FS) (src_path dst_rel : String) : FS :=
  match fs.openR src_path with
  | none => fs
  | some content =>
    let dst_path := BACKUP_FOLDER ++ "/" ++ dst_rel
    let fs1 :=
      if '/' ∈ dst_rel.data then
        let dst_dir : String := ⟨parentL dst_rel.data⟩
        match fs.mkdir (BACKUP_FOLDER ++ "/" ++ dst_dir) with
        | some f => f
        | none => fs
      else fs
    match fs1.openW dst_path content with
    | some f => f
    | none => fs1

/-- The backup loop of `create_backup`. -/
def backupFiles : List (String × String) → FS → FS
  | [], fs => fs
  | (src_path, dst_rel) :: rest, fs => backupFiles rest (backupFile fs src_path dst_rel)

/-- `updater_utils.create_backup`: remove a stale (empty) backup folder,
make a fresh one (a failure here is caught by the outer handler and
returns `false`), then best-effort copy every listed Python file. -/
def create_backup (fuel : Nat) (fs : FS) : FS × Bool :=
  let fs1 := match fs.rmdir BACKUP_FOLDER with | some f => f | none => fs
  match fs1.mkdir BACKUP_FOLDER with
  | none => (fs1, false)
  | some fs2 =>
    let files_to_backup := list_python_files fs2 fuel "."
    (backupFiles files_to_backup fs2, true)

/-- Subdirectory-restoring loop of `restore_backup` (a single `try` covers
the whole directory entry, so the first failure abandons the rest). -/
def restoreSub (f : String) : List String → FS → FS
  | [], fs => fs
  | sf :: rest, fs =>
    match fs.openR (BACKUP_FOLDER ++ "/" ++ f ++ "/" ++ sf) with
    | none => fs
    | some content =>
      match fs.openW (f ++ "/" ++ sf) content with
      | none => fs
      | some fs' => restoreSub f rest fs'

/-- Body of the per-entry `try/except` in `restore_backup`. -/
def restoreEntry (fs : FS) (f : String) : FS :=
  let src_path := BACKUP_FOLDER ++ "/" ++ f
  match fs.statIsDir src_path with
  | none => fs
  | some true =>
    let fs1 := match fs.mkdir f with | some x => x | none => fs
    match fs1.listdir src_path with
    | none => fs1
    | some subfiles => restoreSub f subfiles fs1
  | some false =>
    match fs.openR src_path with
    | none => fs
    | some content =>
      match fs.openW f content with
      | some x => x
      | none => fs

/-- The restore loop of `restore_backup`. -/
def restoreEntries : List String → FS → FS
  | [], fs => fs
  | f :: rest, fs => restoreEntries rest (restoreEntry fs f)

/-- `updater_utils.restore_backup`: copy every backup entry back to its
live path, then `uos.rmdir(BACKUP_FOLDER)` — the `rmdir` is inside the
outer `try`, so its failure (backup folder still non-empty) makes the
function return `false` even though the files were restored. -/
def restore_backup (fs : FS) : FS × Bool :=
  match fs.listdir BACKUP_FOLDER with
  | none => (fs, false)
  | some files =>
    let fs' := restoreEntries files fs
    match fs'.rmdir BACKUP_FOLDER with
    | none => (fs', false)
    | some fs'' => (fs'', true)

/-- File-removal loop over one backup subdirectory in `cleanup_backup`
(no per-file handler: the first failure aborts the enclosing entry). -/
def cleanupSub (path : String) : List String → FS → FS × Bool
  | [], fs => (fs, true)
  | sf :: rest, fs =>
    match fs.remove (path ++ "/" ++ sf) with
    | none => (fs, false)
    | some fs' => cleanupSub path rest fs'

/-- Body of the per-entry `try/except` in `cleanup_backup`. -/
def cleanupEntry (fs : FS) (f : String) : FS :=
  let path := BACKUP_FOLDER ++ "/" ++ f
  match fs.statIsDir path with
  | none => fs
  | some true =>
    match fs.listdir path with
    | none => fs
    | some subfiles =>
      match cleanupSub path subfiles fs with
      | (fs1, true) => (match fs1.rmdir path with | some x => x | none => fs1)
      | (fs1, false) => fs1
  | some false =>
    match fs.remove path with | some x => x | none => fs

/-- The entry loop of `cleanup_backup`. -/
def cleanupEntries : List String → FS → FS
  | [], fs => fs
  | f :: rest, fs => cleanupEntries rest (cleanupEntry fs f)

/-- `updater_utils.cleanup_backup`: best-effort removal of the backup tree;
all failures are swallowed. -/
def cleanup_backup (fs : FS) : FS :=
  match fs.listdir BACKUP_FOLDER with
  | none => fs
  | some files =>
    let fs' := cleanupEntries files fs
    match fs'.rmdir BACKUP_FOLDER with
    | some x => x
    | none => fs'

/-- `updater_utils.perform_rollback`: list the backup folder (failure or an
empty folder reports `false`); call `restore_backup` and abort on `false`;
then delete the persisted version, `cleanup_backup`, and report success. -/
def perform_rollback (fs : FS) : FS × Bool :=
  match fs.listdir BACKUP_FOLDER with
  | none => (fs, false)
  | some files =>
    if files = [] then (fs, false)
    else
      match restore_backup fs with
      | (fs1, false) => (fs1, false)
      | (fs1, true) =>
        let fs2 := match fs1.remove VERSION_FILE with | some x => x | none => fs1
        (cleanup_backup fs2, true)

/-- `updater_utils.copy_file_content`: create the destination directory if
the path has one, then write; returns `false` on failure. -/
def copy_file_content (fs : FS) (content : String) (filename : String) : FS × Bool :=
  let fs1 :=
    if '/' ∈ filename.data then
      let dst_dir : String := ⟨parentL filename.data⟩
      match fs.mkdir dst_dir with | some x => x | none => fs
    else fs
  match fs1.openW filename content with
  | some fs2 => (fs2, true)
  | none => (fs1, false)

end UpdaterUtils

namespace SdUpdater

open FSys

/-- `sd_updater.VERSION_FILE`. -/
def VERSION_FILE : String := "/.version"

/-- `sd_updater.UPDATE_FOLDER` (the mounted SD card's update directory). -/
def UPDATE_FOLDER : String := "/sd/update"

/-- `sd_updater.read_version` (the module has its own copy). -/
def read_version (fs : FS) : Option String :=
  (fs.openR VERSION_FILE).map fun s => (⟨PyStr.stripWs s.data⟩ : String)

/-- `sd_updater.write_version` (no handler: `none` is an uncaught error). -/
def write_version (fs : FS) (version : String) : Option FS :=
  fs.openW VERSION_FILE version

/-- `sd_updater.read_update_version`: `version.txt` in the update folder,
stripped; absent or unreadable reads as `none`. -/
def read_update_version (fs : FS) : Option String :=
  (fs.openR (UPDATE_FOLDER ++ "/version.txt")).map fun s => (⟨PyStr.stripWs s.data⟩ : String)

/-- `sd_updater.list_update_files`: entries of the update folder that are
not hidden; `none` when the folder does not exist. -/
def list_update_files (fs : FS) : Option (List String) :=
  (fs.listdir UPDATE_FOLDER).map fun files =>
    files.filter fun f => !(startsWithL ['.'] f.data)

/-- `sd_updater.copy_file`: copy one file from the update folder to an
internal-flash destination, creating the destination directory if the
path has one. -/
def copy_file (fs : FS) (src dst : String) : FS × Bool :=
  let fs1 :=
    if '/' ∈ dst.data then
      let dst_dir : String := ⟨parentL dst.data⟩
      match fs.mkdir dst_dir with | some x => x | none => fs
    else fs
  match fs1.openR (UPDATE_FOLDER ++ "/" ++ src) with
  | none => (fs1, false)
  | some content =>
    match fs1.openW dst content with
    | some fs2 => (fs2, true)
    | none => (fs1, false)

/-- The fixed-list backup loop of `sd_updater.create_backup` (per-file
`try/except`: failures are skipped). -/
def sdBackupList : List String → FS → FS
  | [], fs => fs
  | f :: rest, fs =>
    let fs' :=
      match fs.openR f with
      | none => fs
      | some content =>
        match fs.openW ("/backup/" ++ f) content with
        | some x => x
        | none => fs
    sdBackupList rest fs'

/-- The sensors-directory backup loop of `sd_updater.create_backup` (one
`try` covers the whole block, so the first failure abandons the rest). -/
def sdBackupSensors : List String → FS → FS
  | [], fs => fs
  | sf :: rest, fs =>
    if endsWithL ".py".data sf.data then
      match fs.openR ("sensors/" ++ sf) with
      | none => fs
      | some content =>
        match fs.openW ("/backup/sensors/" ++ sf) content with
        | none => fs
        | some fs' => sdBackupSensors rest fs'
    else sdBackupSensors rest fs

/-- `sd_updater.create_backup`: NOTE the fixed backup list includes
`secrets.py` (unlike `updater_utils.EXCLUDE_FILES`). -/
def create_backup (fs : FS) : FS × Bool :=
  let fs1 := match fs.rmdir "/backup" with | some x => x | none => fs
  match fs1.mkdir "/backup" with
  | none => (fs1, false)
  | some fs2 =>
    let fs3 := sdBackupList ["main.py", "config.py", "secrets.py"] fs2
    let fs4 :=
      match fs3.mkdir "/backup/sensors" with
      | none => fs3
      | some fsA =>
        match fsA.listdir "sensors" with
        | none => fsA
        | some sensor_files => sdBackupSensors sensor_files fsA
    (fs4, true)

/-- The sensors-restoring loop of `sd_updater.restore_backup` (no per-file
handler inside the entry's `try`). -/
def sdRestoreSensors : List String → FS → FS
  | [], fs => fs
  | sf :: rest, fs =>
    match fs.openR ("/backup/sensors/" ++ sf) with
    | none => fs
    | some content =>
      match fs.openW ("sensors/" ++ sf) content with
      | none => fs
      | some fs' => sdRestoreSensors rest fs'

/-- The entry loop of `sd_updater.restore_backup` (per-entry
`try/except`). -/
def sdRestoreEntries : List String → FS → FS
  | [], fs => fs
  | f :: rest, fs =>
    let fs' :=
      if f = "sensors" then
        match fs.listdir "/backup/sensors" with
        | none => fs
        | some sensor_files =>
          let fs1 := match fs.mkdir "sensors" with | some x => x | none => fs
          sdRestoreSensors sensor_files fs1
      else
        match fs.openR ("/backup/" ++ f) with
        | none => fs
        | some content =>
          match fs.openW f content with
          | some x => x
          | none => fs
    sdRestoreEntries rest fs'

/-- `sd_updater.restore_backup`: like the shared one, the trailing
`uos.rmdir("/backup")` sits inside the outer `try`, so a still-populated
backup folder makes the function return `false`. -/
def restore_backup (fs : FS) : FS × Bool :=
  match fs.listdir "/backup" with
  | none => (fs, false)
  | some files =>
    let fs' := sdRestoreEntries files fs
    match fs'.rmdir "/backup" with
    | none => (fs', false)
    | some fs'' => (fs'', true)

/-- Per-file removal loop (each removal has its own `try/except`) inside
the sensors branch of `sd_updater.cleanup_backup`. -/
def sdCleanupSensors : List String → FS → FS
  | [], fs => fs
  | sf :: rest, fs =>
    sdCleanupSensors rest
      (match fs.remove ("/backup/sensors/" ++ sf) with | some x => x | none => fs)

/-- The entry loop of `sd_updater.cleanup_backup`. -/
def sdCleanupEntries : List String → FS → FS
  | [], fs => fs
  | f :: rest, fs =>
    let fs' :=
      if f = "sensors" then
        match fs.listdir "/backup/sensors" with
        | none => fs
        | some sfs =>
          let fs1 := sdCleanupSensors sfs fs
          match fs1.rmdir "/backup/sensors" with | some x => x | none => fs1
      else
        match fs.remove ("/backup/" ++ f) with | some x => x | none => fs
    sdCleanupEntries rest fs'

/-- `sd_updater.cleanup_backup`. -/
def cleanup_backup (fs : FS) : FS :=
  match fs.listdir "/backup" with
  | none => fs
  | some files =>
    let fs' := sdCleanupEntries files fs
    match fs'.rmdir "/backup" with | some x => x | none => fs'

/-- The flat copy loop of `sd_updater.perform_rollback` (per-entry
`try/except`; a directory entry such as `sensors` fails to `open` and is
silently skipped). -/
def sdRollbackCopy : List String → FS → FS
  | [], fs => fs
  | f :: rest, fs =>
    let fs' :=
      match fs.openR ("/backup/" ++ f) with
      | none => fs
      | some content =>
        match fs.openW f content with
        | some x => x
        | none => fs
    sdRollbackCopy rest fs'

/-- `sd_updater.perform_rollback` (the module's own flat version, used by
`check_and_apply_update`). -/
def perform_rollback (fs : FS) : FS × Bool :=
  match fs.listdir "/backup" with
  | none => (fs, false)
  | some files =>
    if files = [] then (fs, false)
    else
      let fs1 := sdRollbackCopy files fs
      let fs2 := match fs1.remove VERSION_FILE with | some x => x | none => fs1
      (cleanup_backup fs2, true)

/-- The file-copy loop of `sd_updater.apply_update`: `version.txt` is
skipped, the destination equals the source name in every branch of the
`if/elif` chain, and the first failed copy breaks the loop. -/
def applyFiles : List String → FS → FS × List Ev × Bool
  | [], fs => (fs, [], true)
  | f :: rest, fs =>
    if f = "version.txt" then applyFiles rest fs
    else
      let dst :=
        if f = "main.py" then "main.py"
        else if f = "config.py" then "config.py"
        else if f = "secrets.py" then "secrets.py"
        else if startsWithL "sensors/".data f.data then f
        else f
      match copy_file fs f dst with
      | (fs', true) =>
        let r := applyFiles rest fs'
        (r.1, Ev.wroteLive dst :: r.2.1, r.2.2)
      | (fs', false) => (fs', [], false)

/-- `sd_updater.apply_update`.  NOTE the version gate is the raw Python
string comparison `new_version <= current` (lexicographic by code point),
not `compare_versions`. -/
def apply_update (fs : FS) : FS × List Ev × Bool :=
  match read_update_version fs with
  | none => (fs, [], false)
  | some new_version =>
    let current := (read_version fs).getD "0.0"
    if PyStr.pyStrLe new_version.data current.data then (fs, [], false)
    else
      match list_update_files fs with
      | none => (fs, [], false)
      | some files =>
        if files = [] then (fs, [], false)
        else
          let update_files :=
            files.filter fun f => endsWithL ".py".data f.data || f == "version.txt"
          match create_backup fs with
          | (fs1, false) => (fs1, [Ev.backupCall false], false)
          | (fs1, true) =>
            let r := applyFiles update_files fs1
            let evs := Ev.backupCall true :: r.2.1
            if r.2.2 then
              match write_version r.1 new_version with
              | none => (r.1, evs, false)
              | some fs3 =>
                let fs4 := cleanup_backup fs3
                (fs4, evs ++ [Ev.versionWritten new_version, Ev.cleanupCall], true)
            else
              let rr := restore_backup r.1
              let fs4 := cleanup_backup rr.1
              (fs4, evs ++ [Ev.restoreCall rr.2, Ev.cleanupCall], false)

/-- `sd_updater.check_and_apply_update`, with the physical-trigger and
SD-initialization outcomes as oracle inputs.  On a rollback trigger it
returns `true` whether or not the rollback succeeded; a reboot is
requested only on success. -/
def check_and_apply_update (rollbackTrigger updateButton sdInitOk : Bool) (fs : FS) :
    FS × List Ev × Bool :=
  if rollbackTrigger then
    match perform_rollback fs with
    | (fs1, true) => (fs1, [Ev.rebootRequested], true)
    | (fs1, false) => (fs1, [], true)
  else if !updateButton then (fs, [], false)
  else if !sdInitOk then (fs, [], false)
  else
    let r := apply_update fs
    if r.2.2 then (r.1, r.2.1 ++ [Ev.rebootRequested], true)
    else (r.1, r.2.1, false)

end SdUpdater

namespace GithubUpdater

open FSys

/-- `github_updater.FILES_TO_UPDATE`: the fixed whitelist of files a
network update may touch. -/
def FILES_TO_UPDATE : List String :=
  ["main.py", "app.py", "config.py", "github_updater.py", "sd_updater.py",
   "blink.py", "wifi_utils.py", "updater_utils.py", "sensors/__init__.py",
   "sensors/ds18b20.py", "sensors/ads1115.py", "sensors/acs37030.py"]

/-- One entry of the GitHub repository-contents listing. -/
structure Item where
  name : String
  path : String
  type : String
deriving DecidableEq, Repr

/-- One manifest entry produced by `get_all_py_files`. -/
structure ManifestEntry where
  path : String
  api_path : String
deriving DecidableEq, Repr

/-- The release data `check_and_update` works from. -/
structure ReleaseInfo where
  tag : String
  files : List ManifestEntry
deriving DecidableEq, Repr

/-- `github_updater.get_latest_release_tag`: the raw `tag_name` of the
latest-release API response (`none` models any non-200 response or
transport error), with leading `v`s stripped (`.lstrip("v")`). -/
def get_latest_release_tag (resp : Option String) : Option String :=
  resp.map fun t => (⟨t.data.dropWhile fun c => c = 'v'⟩ : String)

/-- The `for item in contents` loop of `github_updater.get_all_py_files`.
The source's recursive call re-fetches `get_file_list(owner, repo, ref)`
with no path argument, i.e. the SAME root listing, so the loop is passed
the fixed `contents` for its recursion; `fuel` bounds the (in the source,
unbounded) recursion — every theorem below holds for every fuel value. -/
def gapfLoop (contents : List Item) : Nat → List Item → String → List ManifestEntry
  | 0, _, _ => []
  | _ + 1, [], _ => []
  | fuel + 1, item :: rest, pre =>
    let tail := gapfLoop contents fuel rest pre
    if item.type = "file" ∧ endsWithL ".py".data item.name.data then
      let full_path := if pre = "" then pre ++ item.name else pre ++ "/" ++ item.name
      if full_path ∈ FILES_TO_UPDATE then
        ({ path := full_path, api_path := item.path } : ManifestEntry) :: tail
      else tail
    else if item.type = "dir" ∧ item.name ∉ [".git", ".vscode"] then
      gapfLoop contents fuel contents item.name ++ tail
    else tail

/-- `github_updater.get_all_py_files` (the `contents` oracle is the result
of `get_file_list`; `none` models a failed listing). -/
def get_all_py_files (contents : Option (List Item)) (fuel : Nat) (pre : String) :
    List ManifestEntry :=
  match contents with
  | none => []
  | some items => if items = [] then [] else gapfLoop items fuel items pre

/-- `github_updater.get_latest_release`: tag plus manifest, `none` when the
tag is missing/empty or no whitelisted `.py` file is found. -/
def get_latest_release (tagResp : Option String) (contents : Option (List Item))
    (fuel : Nat) : Option ReleaseInfo :=
  match get_latest_release_tag tagResp with
  | none => none
  | some tag =>
    if tag = "" then none
    else
      let py_files := get_all_py_files contents fuel ""
      if py_files = [] then none
      else some { tag := tag, files := py_files }

/-- The download loop of `github_updater.download_and_update`: entries with
an empty path are skipped, `secrets.py` is skipped by name, a failed fetch
or write returns `false` immediately (fail-fast).  The `fetch` oracle
models `get_file_content(owner, repo, api_path, ref)`. -/
def dlFiles (fetch : String → String → Option String) (tag : String) :
    List ManifestEntry → FS → FS × List Ev × Bool
  | [], fs => (fs, [], true)
  | fi :: rest, fs =>
    if fi.path = "" ∨ fi.api_path = "" then dlFiles fetch tag rest fs
    else if fi.path = "secrets.py" then dlFiles fetch tag rest fs
    else
      match fetch fi.api_path tag with
      | none => (fs, [], false)
      | some content =>
        match UpdaterUtils.copy_file_content fs content fi.path with
        | (fs', true) =>
          let r := dlFiles fetch tag rest fs'
          (r.1, Ev.wroteLive fi.path :: r.2.1, r.2.2)
        | (fs', false) => (fs', [], false)

/-- `github_updater.download_and_update`: download every manifest file,
then persist the version and request a reboot.  NOTE: it never calls
`create_backup`, and on failure it returns `false` without calling
`restore_backup` or `cleanup_backup`. -/
def download_and_update (fetch : String → String → Option String) (ri : ReleaseInfo)
    (fs : FS) : FS × List Ev × Bool :=
  let r := dlFiles fetch ri.tag ri.files fs
  if r.2.2 then
    match UpdaterUtils.write_version r.1 ri.tag with
    | some fs2 =>
      (fs2, Ev.applyStarted Source.github :: r.2.1 ++
        [Ev.versionWritten ri.tag, Ev.rebootRequested], true)
    | none => (r.1, Ev.applyStarted Source.github :: r.2.1, false)
  else (r.1, Ev.applyStarted Source.github :: r.2.1, false)

/-- `github_updater.check_and_update`: WiFi gate, release lookup, version
gate via `compare_versions`, then `download_and_update` (whose `true`
branch textually writes the version and resets again). -/
def check_and_update (connected : Bool) (tagResp : Option String)
    (contents : Option (List Item)) (fuel : Nat)
    (fetch : String → String → Option String) (fs : FS) : FS × List Ev × Bool :=
  if !connected then (fs, [], false)
  else
    match get_latest_release tagResp contents fuel with
    | none => (fs, [], false)
    | some release =>
      let new_version := release.tag
      if new_version = "" then (fs, [], false)
      else
        let current := (UpdaterUtils.read_version fs).getD "0.0"
        let result := UpdaterUtils.compare_versions current new_version
        if result ≤ 0 then (fs, [], false)
        else
          match download_and_update fetch release fs with
          | (fs1, evs, true) =>
            match UpdaterUtils.write_version fs1 new_version with
            | some fs2 =>
              (fs2, evs ++ [Ev.versionWritten new_version, Ev.rebootRequested], true)
            | none => (fs1, evs, false)
          | (fs1, evs, false) => (fs1, evs, false)

end GithubUpdater

namespace Boot

open FSys

/-- The module-level boot sequence of `boot.py`: run the GitHub check when
configuration import and WiFi both succeed; fall through to the SD-card
check whenever `github_updated` is false.  Returns the final filesystem,
the event trace, `github_updated` and `sd_updated`. -/
def boot (enabled wifiOk : Bool) (tagResp : Option String)
    (contents : Option (List GithubUpdater.Item)) (fuel : Nat)
    (fetch : String → String → Option String)
    (rollbackTrigger updateButton sdInitOk : Bool) (fs : FS) :
    FS × List Ev × Bool × Bool :=
  let g :=
    if enabled && wifiOk then
      GithubUpdater.check_and_update wifiOk tagResp contents fuel fetch fs
    else (fs, [], false)
  if !g.2.2 then
    let s := SdUpdater.check_and_apply_update rollbackTrigger updateButton sdInitOk g.1
    (s.1, g.2.1 ++ Ev.checkedSd :: s.2.1, g.2.2, s.2.2)
  else (g.1, g.2.1, g.2.2, false)

end Boot

section Fixtures

open FSys

/-- A live tree with one firmware file and no persisted version. -/
def ghFS0 : FS := { files := [("main.py".data, "M0")], dirs := [] }

/-- A repository root listing containing the single whitelisted `app.py`. -/
def ghContents1 : List GithubUpdater.Item :=
  [{ name := "app.py", path := "app.py", type := "file" }]

/-- A repository root listing with `app.py` and `config.py`. -/
def ghContents2 : List GithubUpdater.Item :=
  [{ name := "app.py", path := "app.py", type := "file" },
   { name := "config.py", path := "config.py", type := "file" }]

/-- A fetch oracle that serves content only for `app.py` (so `config.py`
downloads fail). -/
def ghFetch (p _ : String) : Option String := if p = "app.py" then some "NEW" else none

/-- A live tree plus mounted SD card whose update folder carries a newer
`version.txt` and a `secrets.py` payload. -/
def sdSecretsFS : FS :=
  { files := [("main.py".data, "M0"), ("secrets.py".data, "S0"),
              ("sd/update/version.txt".data, "2.0.0"),
              ("sd/update/secrets.py".data, "EVIL")],
    dirs := ["sd".data, "sd/update".data] }

/-- Stored version `1.9`, SD update version `1.10.0`: numerically newer but
lexicographically smaller. -/
def sdLexFS : FS :=
  { files := [(".version".data, "1.9"), ("main.py".data, "M0"),
              ("sd/update/version.txt".data, "1.10.0"),
              ("sd/update/main.py".data, "NEWMAIN")],
    dirs := ["sd".data, "sd/update".data] }

/-- A non-empty Backup Set (`/backup/main.py`) with a persisted version and
a diverged live `main.py`. -/
def rollbackFS : FS :=
  { files := [(".version".data, "1.2.0"), ("main.py".data, "B"),
              ("backup/main.py".data, "A")],
    dirs := ["backup".data] }

/-- A live tree whose `sensors` directory contains a nested `sensors`
directory with a Python file, making the Backup Set two levels deep. -/
def nestedFS : FS :=
  { files := [("a.py".data, "A"), ("sensors/x.py".data, "X"),
              ("sensors/sensors/y.py".data, "Y")],
    dirs := ["sensors".data, "sensors/sensors".data] }

end Fixtures

/-- Claim C1 (code bug evaluated at the failing input): a GitHub update
attempt — release `v1.1.0`, manifest `[app.py]`, fetch succeeding, no
stored version — overwrites the live `app.py` although `create_backup`
was never called: the trace contains `wroteLive "app.py"` and no
`backupCall` event at all (`github_updater.check_and_update` and
`download_and_update` contain no call to `create_backup`, contradicting
the module docstring's "5. If newer, backup current firmware"). -/
theorem C1_github_writes_live_without_backup :
    (GithubUpdater.check_and_update true (some "v1.1.0") (some ghContents1) 9
        ghFetch ghFS0).2.1 =
      [Ev.applyStarted Source.github, Ev.wroteLive "app.py",
       Ev.versionWritten "1.1.0", Ev.rebootRequested,
       Ev.versionWritten "1.1.0", Ev.rebootRequested] ∧
    (GithubUpdater.check_and_update true (some "v1.1.0") (some ghContents1) 9
        ghFetch ghFS0).1.openR "app.py" = some "NEW" := by decide

/-- Claim C2 (code bug evaluated at the failing input): a GitHub attempt
whose second manifest entry fails to fetch stops fail-fast (only
`app.py` was written), but the supervisor then returns `false` WITHOUT
any `restoreCall` or `cleanupCall` event — the partially-applied
`app.py = "NEW"` is left in place, contradicting the module docstring's
"If update fails, automatically restores from backup". -/
theorem C2_github_failure_no_restore_no_cleanup :
    (GithubUpdater.check_and_update true (some "v1.1.0") (some ghContents2) 9
        ghFetch ghFS0).2.1 =
      [Ev.applyStarted Source.github, Ev.wroteLive "app.py"] ∧
    (GithubUpdater.check_and_update true (some "v1.1.0") (some ghContents2) 9
        ghFetch ghFS0).2.2 = false ∧
    (GithubUpdater.check_and_update true (some "v1.1.0") (some ghContents2) 9
        ghFetch ghFS0).1.openR "app.py" = some "NEW" := by decide

/-- Claim C3 counterexample: with `secrets.py` present in the SD update
folder, `sd_updater.apply_update` writes `secrets.py` to its live path
(live content becomes the SD payload, and the trace records the write),
and `sd_updater.create_backup` copies the live `secrets.py` into the
Backup Set — both halves of the claim fail for the SD adapter. -/
theorem C3_counterexample_sd_writes_secrets :
    Ev.wroteLive "secrets.py" ∈ (SdUpdater.apply_update sdSecretsFS).2.1 ∧
    (SdUpdater.apply_update sdSecretsFS).1.openR "secrets.py" = some "EVIL" ∧
    (SdUpdater.create_backup sdSecretsFS).1.openR "/backup/secrets.py" = some "S0" := by
  decide

/-- Claim C4 counterexample: stored version `1.9`, SD update version
`1.10.0` — strictly newer under the §4.1 component-wise comparison
(`compare_versions "1.9" "1.10.0" = 1`) — yet `sd_updater.apply_update`
returns "no update" untouched, because its gate is the lexicographic
string comparison `new_version <= current`. -/
theorem C4_counterexample_sd_lexicographic_gate :
    SdUpdater.apply_update sdLexFS = (sdLexFS, [], false) ∧
    UpdaterUtils.compare_versions "1.9" "1.10.0" = 1 := by decide

/-- Claim C6 (code bug evaluated at the failing input): with a non-empty
Backup Set `{main.py ↦ "A"}`, `updater_utils.perform_rollback` restores
`main.py` best-effort but then reports FAILURE, leaving the persisted
version file and the whole Backup Set in place: `restore_backup`'s
trailing `uos.rmdir("/backup")` always raises on the still-populated
backup folder, so `restore_backup` returns `false` and
`perform_rollback` aborts before deleting `/.version` and before
`cleanup_backup` — the claim's success branch is unreachable. -/
theorem C6_rollback_reports_failure_on_nonempty_backup :
    (UpdaterUtils.perform_rollback rollbackFS).2 = false ∧
    (UpdaterUtils.restore_backup rollbackFS).2 = false ∧
    (UpdaterUtils.perform_rollback rollbackFS).1.openR "/.version" = some "1.2.0" ∧
    "backup".data ∈ (UpdaterUtils.perform_rollback rollbackFS).1.dirs ∧
    (UpdaterUtils.perform_rollback rollbackFS).1.openR "main.py" = some "A" := by decide

/-- Claim C7 counterexample: in a single boot the GitHub source is probed,
yields a strictly-newer version and enters the apply phase
(`applyStarted github` is in the trace), the attempt then fails — and the
boot sequence still consults the SD-card source in the same boot
(`checkedSd` is in the trace), because `boot.py` falls through to the SD
check whenever `github_updated` is false. -/
theorem C7_counterexample_failed_github_then_sd :
    Ev.applyStarted Source.github ∈
      (Boot.boot true true (some "v1.1.0") (some ghContents2) 9 ghFetch
        false false false ghFS0).2.1 ∧
    Ev.checkedSd ∈
      (Boot.boot true true (some "v1.1.0") (some ghContents2) 9 ghFetch
        false false false ghFS0).2.1 := by decide

/-- Claim C5 counterexample: on a live tree whose `sensors` directory
contains a nested `sensors` directory with a `.py` file, `create_backup`
succeeds and produces a two-level-deep Backup Set, and after
`create_backup`, `restore_backup`, `cleanup_backup` the `/backup`
directory is still present (with `backup/sensors/sensors/y.py` still
inside): `cleanup_backup` only removes one directory level, so the claim's
"leaves no Backup Set behind" fails on this tree. -/
theorem C5_counterexample_nested_sensors_backup_left :
    (UpdaterUtils.create_backup 9 nestedFS).2 = true ∧
    "backup".data ∈
      (UpdaterUtils.cleanup_backup
        (UpdaterUtils.restore_backup (UpdaterUtils.create_backup 9 nestedFS).1).1).dirs ∧
    FSys.lookupA
      (UpdaterUtils.cleanup_backup
        (UpdaterUtils.restore_backup (UpdaterUtils.create_backup 9 nestedFS).1).1).files
      "backup/sensors/sensors/y.py".data = some "Y" := by decide


namespace GithubUpdater

open FSys

/-- Every entry produced by the `get_all_py_files` loop has a whitelisted
path. -/
lemma gapfLoop_subset (contents : List Item) :
    ∀ fuel items pre, ∀ e ∈ gapfLoop contents fuel items pre,
      e.path ∈ FILES_TO_UPDATE := by
  intro fuel
  induction fuel with
  | zero =>
    intro items pre e he
    simp [gapfLoop] at he
  | succ n ih =>
    intro items pre e he
    match items with
    | [] => simp [gapfLoop] at he
    | item :: rest =>
      rw [gapfLoop] at he
      dsimp only at he
      split at he
      · split at he
        · split at he
          next hmem =>
            rcases List.mem_cons.mp he with rfl | htail
            · exact hmem
            · exact ih rest pre e htail
          next => exact ih rest pre e he
        · split at he
          next hmem =>
            rcases List.mem_cons.mp he with rfl | htail
            · exact hmem
            · exact ih rest pre e htail
          next => exact ih rest pre e he
      · split at he
        · rcases List.mem_append.mp he with hrec | htail
          · exact ih contents item.name e hrec
          · exact ih rest pre e htail
        · exact ih rest pre e he

/-- Every entry of a `get_all_py_files` manifest has a whitelisted path. -/
lemma get_all_py_files_subset (contents : Option (List Item)) (fuel : Nat) (pre : String) :
    ∀ e ∈ get_all_py_files contents fuel pre, e.path ∈ FILES_TO_UPDATE := by
  intro e he
  unfold get_all_py_files at he
  match contents with
  | none => simp at he
  | some items =>
    simp only at he
    split at he
    · simp at he
    · exact gapfLoop_subset items fuel items pre e he

/-- Every `wroteLive` event of the download loop names a manifest path that
is not `secrets.py`. -/
lemma dlFiles_wroteLive (fetch : String → String → Option String) (tag : String) :
    ∀ l fs p, Ev.wroteLive p ∈ (dlFiles fetch tag l fs).2.1 →
      p ∈ l.map ManifestEntry.path ∧ p ≠ "secrets.py" := by
  intro l
  induction l with
  | nil =>
    intro fs p h
    simp [dlFiles] at h
  | cons fi rest ih =>
    intro fs p h
    rw [dlFiles] at h
    split at h
    · rcases ih _ p h with ⟨hm, hs⟩
      exact ⟨List.mem_cons_of_mem _ hm, hs⟩
    · split at h
      next hsec =>
        rcases ih _ p h with ⟨hm, hs⟩
        exact ⟨List.mem_cons_of_mem _ hm, hs⟩
      next hsec =>
        match hfetch : fetch fi.api_path tag with
        | none =>
          rw [hfetch] at h
          simp at h
        | some content =>
          rw [hfetch] at h
          dsimp only at h
          match hcopy : UpdaterUtils.copy_file_content fs content fi.path with
          | (fs', true) =>
            rw [hcopy] at h
            dsimp only at h
            rcases List.mem_cons.mp h with hhead | htail
            · have hp : p = fi.path := by injection hhead
              subst hp
              exact ⟨List.mem_cons_self _ _, hsec⟩
            · rcases ih _ p htail with ⟨hm, hs⟩
              exact ⟨List.mem_cons_of_mem _ hm, hs⟩
          | (fs', false) =>
            rw [hcopy] at h
            simp at h

/-- Every `wroteLive` event of `download_and_update` names a manifest path
that is not `secrets.py`. -/
lemma download_wroteLive (fetch : String → String → Option String) (ri : ReleaseInfo)
    (fs : FS) (p : String)
    (h : Ev.wroteLive p ∈ (download_and_update fetch ri fs).2.1) :
    p ∈ ri.files.map ManifestEntry.path ∧ p ≠ "secrets.py" := by
  unfold download_and_update at h
  dsimp only at h
  by_cases hok : (dlFiles fetch ri.tag ri.files fs).2.2 = true
  · rw [if_pos hok] at h
    match hw : UpdaterUtils.write_version (dlFiles fetch ri.tag ri.files fs).1 ri.tag with
    | some fs2 =>
      rw [hw] at h
      dsimp only at h
      rcases List.mem_cons.mp h with hbad | h
      · exact absurd hbad (by simp)
      · rcases List.mem_append.mp h with h | hbad
        · exact dlFiles_wroteLive fetch ri.tag ri.files fs p h
        · rcases List.mem_cons.mp hbad with hbad | hbad
          · exact absurd hbad (by simp)
          · rcases List.mem_cons.mp hbad with hbad | hbad
            · exact absurd hbad (by simp)
            · simp at hbad
    | none =>
      rw [hw] at h
      dsimp only at h
      rcases List.mem_cons.mp h with hbad | h
      · exact absurd hbad (by simp)
      · exact dlFiles_wroteLive fetch ri.tag ri.files fs p h
  · rw [if_neg hok] at h
    rcases List.mem_cons.mp h with hbad | h
    · exact absurd hbad (by simp)
    · exact dlFiles_wroteLive fetch ri.tag ri.files fs p h

end GithubUpdater

namespace FSys

lemma splitLastSlash_none : ∀ {l : List Char}, splitLastSlash l = none → '/' ∉ l := by
  intro l
  induction l with
  | nil => intro _ h; simp at h
  | cons c cs ih =>
    intro h
    rw [splitLastSlash] at h
    match hcs : splitLastSlash cs with
    | some pn => rw [hcs] at h; simp at h
    | none =>
      rw [hcs] at h
      by_cases hc : c = '/'
      · rw [if_pos hc] at h; simp at h
      · intro hmem
        rcases List.mem_cons.mp hmem with hh | hmem
        · exact hc hh.symm
        · exact ih hcs hmem

lemma splitLastSlash_some : ∀ {l p n : List Char},
    splitLastSlash l = some (p, n) → l = p ++ '/' :: n ∧ '/' ∉ n := by
  intro l
  induction l with
  | nil => intro p n h; simp [splitLastSlash] at h
  | cons c cs ih =>
    intro p n h
    rw [splitLastSlash] at h
    match hcs : splitLastSlash cs with
    | some (p', n') =>
      rw [hcs] at h
      simp only [Option.some.injEq, Prod.mk.injEq] at h
      obtain ⟨hp, hn⟩ := h
      rcases ih hcs with ⟨hl, hns⟩
      subst hp
      subst hn
      exact ⟨by rw [hl]; rfl, hns⟩
    | none =>
      rw [hcs] at h
      by_cases hc : c = '/'
      · rw [if_pos hc] at h
        simp only [Option.some.injEq, Prod.mk.injEq] at h
        obtain ⟨hp, hn⟩ := h
        subst hp
        subst hn
        subst hc
        exact ⟨rfl, splitLastSlash_none hcs⟩
      · rw [if_neg hc] at h; simp at h

lemma splitLastSlash_append {a e : List Char} (he : '/' ∉ e) :
    splitLastSlash (a ++ '/' :: e) = some (a, e) := by
  induction a with
  | nil =>
    rw [List.nil_append, splitLastSlash]
    match h : splitLastSlash e with
    | some (p, n) =>
      exact absurd (splitLastSlash_some h).1
        (by intro hl; exact he (hl ▸ List.mem_append_right _ (List.mem_cons_self _ _)))
    | none => simp
  | cons c cs ih =>
    rw [List.cons_append, splitLastSlash, ih]

/-- Name of the last path segment. -/
def lastNameL (q : List Char) : List Char :=
  match splitLastSlash q with
  | some (_, n) => n
  | none => q

lemma lastNameL_no_slash {q : List Char} (h : '/' ∉ q) : lastNameL q = q := by
  unfold lastNameL
  match hq : splitLastSlash q with
  | some (p, n) =>
    exact absurd (splitLastSlash_some hq).1
      (by intro hl; exact h (hl ▸ List.mem_append_right _ (List.mem_cons_self _ _)))
  | none => rfl

lemma lastNameL_append {a e : List Char} (he : '/' ∉ e) :
    lastNameL (a ++ '/' :: e) = e := by
  unfold lastNameL
  rw [splitLastSlash_append he]

lemma childName?_no_slash {d q n : List Char} (h : childName? d q = some n) : '/' ∉ n := by
  unfold childName? at h
  match hq : splitLastSlash q with
  | some (p, m) =>
    rw [hq] at h
    dsimp only at h
    split at h
    · injection h with h; subst h; exact (splitLastSlash_some hq).2
    · simp at h
  | none =>
    rw [hq] at h
    dsimp only at h
    split at h
    · injection h with h; subst h; exact splitLastSlash_none hq
    · simp at h

lemma listdir_no_slash {fs : FS} {p : String} {es : List String}
    (h : fs.listdir p = some es) : ∀ e ∈ es, '/' ∉ e.data := by
  intro e he
  unfold FS.listdir at h
  dsimp only at h
  split at h
  · injection h with h
    subst h
    rcases List.mem_append.mp he with hf | hd
    · rcases List.mem_filterMap.mp hf with ⟨kv, _, hkv⟩
      rcases Option.map_eq_some'.mp hkv with ⟨n, hn, he'⟩
      subst he'
      exact childName?_no_slash hn
    · rcases List.mem_filterMap.mp hd with ⟨d, _, hdd⟩
      rcases Option.map_eq_some'.mp hdd with ⟨n, hn, he'⟩
      subst he'
      exact childName?_no_slash hn
  · simp at h

end FSys

namespace UpdaterUtils

open FSys

lemma data_append (a b : String) : (a ++ b).data = a.data ++ b.data := rfl

/-- Shape invariant of the directories `scan_dir` recurses into: the root
`"."`, or a path whose last segment is `sensors`. -/
def CdOk (cd : String) : Prop :=
  cd = "." ∨ ∃ q, cd.data = q ++ "sensors".data ∧ (q = [] ∨ ∃ q', q = q' ++ ['/'])

/-- Path shape of every file listed by `scan_dir`: a possibly-empty prefix
ending in `sensors/` followed by a slash-free `.py` entry name that is not
in `EXCLUDE_FILES`. -/
def PyPath (d : List Char) : Prop :=
  ∃ ph ent, d = ph ++ ent ∧ '/' ∉ ent ∧ endsWithL ".py".data ent = true ∧
    ent ∉ EXCLUDE_FILES.map String.data ∧
    (ph = [] ∨ ∃ q, ph = q ++ ("sensors".data ++ ['/']) ∧ (q = [] ∨ '/' ∈ q))

lemma data_not_mem_map {s : String} {L : List String} (h : s ∉ L) :
    s.data ∉ L.map String.data := by
  intro hm
  rcases List.mem_map.mp hm with ⟨t, ht, hts⟩
  have hts' : t = s := String.ext hts
  exact h (hts' ▸ ht)

lemma scan_dir_shape (fs : FS) :
    ∀ fuel (cd : String) (es : List String), CdOk cd → (∀ e ∈ es, '/' ∉ e.data) →
      ∀ pr ∈ scan_dir fs fuel cd es, pr.1 = pr.2 ∧ PyPath pr.2.data := by
  intro fuel
  induction fuel with
  | zero => intro cd es _ _ pr hpr; simp [scan_dir] at hpr
  | succ n ih =>
    intro cd es hcd hes pr hpr
    match es with
    | [] => simp [scan_dir] at hpr
    | entry :: rest =>
      have hesr : ∀ e ∈ rest, '/' ∉ e.data := fun e he => hes e (List.mem_cons_of_mem _ he)
      have hent : '/' ∉ entry.data := hes entry (List.mem_cons_self _ _)
      rw [scan_dir] at hpr
      dsimp only at hpr
      by_cases hcdot : cd = "."
      · subst hcdot
        have hfp : (if ("." : String) ≠ "." then ("." : String) ++ "/" ++ entry else entry)
            = entry := if_neg (by simp)
        rw [hfp] at hpr
        split at hpr
        · exact ih _ rest hcd hesr pr hpr
        · split at hpr
          · exact ih _ rest hcd hesr pr hpr
          · split at hpr
            · exact ih _ rest hcd hesr pr hpr
            · -- directory entry
              split at hpr
              next hsens =>
                split at hpr
                · exact ih _ rest hcd hesr pr hpr
                next subEntries hsub =>
                  rcases List.mem_append.mp hpr with hrec | htail
                  · refine ih entry subEntries ?_ (listdir_no_slash hsub) pr hrec
                    right
                    exact ⟨[], by rw [hsens]; simp, Or.inl rfl⟩
                  · exact ih _ rest hcd hesr pr htail
              next => exact ih _ rest hcd hesr pr hpr
            · -- file entry
              split at hpr
              next hpy =>
                rcases List.mem_cons.mp hpr with rfl | htail
                · exact ⟨rfl, [], entry.data, (List.nil_append _).symm, hent, hpy.1,
                    data_not_mem_map hpy.2, Or.inl rfl⟩
                · exact ih _ rest hcd hesr pr htail
              next => exact ih _ rest hcd hesr pr hpr
      · have hfp : (if cd ≠ "." then cd ++ "/" ++ entry else entry)
            = cd ++ "/" ++ entry := if_pos hcdot
        rw [hfp] at hpr
        split at hpr
        · exact ih _ rest hcd hesr pr hpr
        · split at hpr
          · exact ih _ rest hcd hesr pr hpr
          · split at hpr
            · exact ih _ rest hcd hesr pr hpr
            · split at hpr
              next hsens =>
                split at hpr
                · exact ih _ rest hcd hesr pr hpr
                next subEntries hsub =>
                  rcases List.mem_append.mp hpr with hrec | htail
                  · refine ih (cd ++ "/" ++ entry) subEntries ?_ (listdir_no_slash hsub) pr hrec
                    right
                    refine ⟨cd.data ++ ['/'], ?_, Or.inr ⟨cd.data, rfl⟩⟩
                    rw [data_append, data_append, hsens]
                  · exact ih _ rest hcd hesr pr htail
              next => exact ih _ rest hcd hesr pr hpr
            · split at hpr
              next hpy =>
                rcases List.mem_cons.mp hpr with rfl | htail
                · refine ⟨rfl, ?_⟩
                  rcases hcd with hcd | ⟨q, hq, hqok⟩
                  · exact absurd hcd hcdot
                  · refine ⟨q ++ ("sensors".data ++ ['/']), entry.data, ?_, hent, hpy.1, ?_, ?_⟩
                    · rw [data_append, data_append, hq]
                      simp
                    · exact data_not_mem_map hpy.2
                    · right
                      refine ⟨q, rfl, ?_⟩
                      rcases hqok with rfl | ⟨q', rfl⟩
                      · exact Or.inl rfl
                      · exact Or.inr (List.mem_append_right _ (List.mem_cons_self _ _))
                · exact ih _ rest hcd hesr pr htail
              next => exact ih _ rest hcd hesr pr hpr

end UpdaterUtils

/-- Claim C3 amended: only the GitHub adapter enforces the secrets policy —
its download loop never performs a live write for a manifest entry named
`secrets.py` (for every manifest, fetch oracle and filesystem), and the
shared `updater_utils` backup never selects a file whose entry name is
`secrets.py` (so the shared Backup Set never contains one).  The SD
adapter violates both halves (see the counterexample). -/
theorem C3_amended_github_never_writes_secrets :
    (∀ (fetch : String → String → Option String) (ri : GithubUpdater.ReleaseInfo)
      (fs : FSys.FS),
      ((GithubUpdater.download_and_update fetch ri fs).2.1).all
        (fun ev => !(ev == Ev.wroteLive "secrets.py")) = true) ∧
    (∀ (fs : FSys.FS) (fuel : Nat),
      (UpdaterUtils.list_python_files fs fuel ".").all
        (fun pr => !(FSys.lastNameL pr.2.data == "secrets.py".data)) = true) := by
  constructor
  · intro fetch ri fs
    rw [List.all_eq_true]
    intro ev hev
    rw [Bool.not_eq_true', beq_eq_false_iff_ne]
    intro hevEq
    subst hevEq
    exact (GithubUpdater.download_wroteLive fetch ri fs _ hev).2 rfl
  · intro fs fuel
    rw [List.all_eq_true]
    intro pr hpr
    rw [Bool.not_eq_true', beq_eq_false_iff_ne]
    unfold UpdaterUtils.list_python_files at hpr
    match hls : fs.listdir "." with
    | none => rw [hls] at hpr; simp at hpr
    | some entries =>
      rw [hls] at hpr
      dsimp only at hpr
      rcases UpdaterUtils.scan_dir_shape fs fuel "." entries (Or.inl rfl)
        (FSys.listdir_no_slash hls) pr hpr with ⟨_, ph, ent, heq, hslash, _, hexcl, hph⟩
      have hsec : ent ≠ "secrets.py".data := by
        intro hcontr
        subst hcontr
        exact hexcl (List.mem_map.mpr ⟨"secrets.py", by decide, rfl⟩)
      rcases hph with rfl | ⟨q, rfl, _⟩
      · rw [heq, List.nil_append, FSys.lastNameL_no_slash hslash]
        exact hsec
      · have heq2 : pr.2.data = (q ++ "sensors".data) ++ '/' :: ent := by
          rw [heq]
          simp [List.append_assoc]
        rw [heq2, FSys.lastNameL_append hslash]
        exact hsec

namespace GithubUpdater

open FSys

/-- The release `check_and_update` binds always carries the manifest
computed by `get_all_py_files`. -/
lemma get_latest_release_files {tagResp : Option String}
    {contents : Option (List Item)} {fuel : Nat} {ri : ReleaseInfo}
    (hrel : get_latest_release tagResp contents fuel = some ri) :
    ri.files = get_all_py_files contents fuel "" := by
  unfold get_latest_release at hrel
  match htag : get_latest_release_tag tagResp with
  | none => rw [htag] at hrel; simp at hrel
  | some tag =>
    rw [htag] at hrel
    dsimp only at hrel
    split at hrel
    · simp at hrel
    · split at hrel
      · simp at hrel
      · injection hrel with hrel
        rw [← hrel]

/-- Every live write performed by `check_and_update` is a path of the
`get_all_py_files` manifest. -/
lemma check_and_update_wroteLive {connected : Bool} {tagResp : Option String}
    {contents : Option (List Item)} {fuel : Nat}
    {fetch : String → String → Option String} {fs : FS} {p : String}
    (h : Ev.wroteLive p ∈ (check_and_update connected tagResp contents fuel fetch fs).2.1) :
    p ∈ (get_all_py_files contents fuel "").map ManifestEntry.path := by
  unfold check_and_update at h
  split at h
  · simp at h
  · match hrel : get_latest_release tagResp contents fuel with
    | none => rw [hrel] at h; simp at h
    | some release =>
      rw [hrel] at h
      dsimp only at h
      split at h
      · simp at h
      · split at h
        · simp at h
        · have hfiles := get_latest_release_files hrel
          match hdl : download_and_update fetch release fs with
          | (fs1, evs, true) =>
            rw [hdl] at h
            dsimp only at h
            have hmem : Ev.wroteLive p ∈ evs := by
              match hw : UpdaterUtils.write_version fs1 release.tag with
              | some fs2 =>
                rw [hw] at h
                dsimp only at h
                rcases List.mem_append.mp h with h | hbad
                · exact h
                · rcases List.mem_cons.mp hbad with hbad | hbad
                  · exact absurd hbad (by simp)
                  · rcases List.mem_cons.mp hbad with hbad | hbad
                    · exact absurd hbad (by simp)
                    · simp at hbad
              | none =>
                rw [hw] at h
                exact h
            have hd : Ev.wroteLive p ∈ (download_and_update fetch release fs).2.1 := by
              rw [hdl]
              exact hmem
            have := (download_wroteLive fetch release fs p hd).1
            rw [hfiles] at this
            exact this
          | (fs1, evs, false) =>
            rw [hdl] at h
            dsimp only at h
            have hd : Ev.wroteLive p ∈ (download_and_update fetch release fs).2.1 := by
              rw [hdl]
              exact h
            have := (download_wroteLive fetch release fs p hd).1
            rw [hfiles] at this
            exact this

/-- The download loop emits only `wroteLive` events. -/
lemma dlFiles_no_checkedSd (fetch : String → String → Option String) (tag : String) :
    ∀ l fs, Ev.checkedSd ∉ (dlFiles fetch tag l fs).2.1 := by
  intro l
  induction l with
  | nil => intro fs h; simp [dlFiles] at h
  | cons fi rest ih =>
    intro fs h
    rw [dlFiles] at h
    split at h
    · exact ih _ h
    · split at h
      · exact ih _ h
      · match hfetch : fetch fi.api_path tag with
        | none => rw [hfetch] at h; simp at h
        | some content =>
          rw [hfetch] at h
          dsimp only at h
          match hcopy : UpdaterUtils.copy_file_content fs content fi.path with
          | (fs', true) =>
            rw [hcopy] at h
            dsimp only at h
            rcases List.mem_cons.mp h with hbad | h
            · simp at hbad
            · exact ih _ h
          | (fs', false) =>
            rw [hcopy] at h
            simp at h

/-- `check_and_update` never emits a `checkedSd` event. -/
lemma check_and_update_no_checkedSd (connected : Bool) (tagResp : Option String)
    (contents : Option (List Item)) (fuel : Nat)
    (fetch : String → String → Option String) (fs : FS) :
    Ev.checkedSd ∉ (check_and_update connected tagResp contents fuel fetch fs).2.1 := by
  intro h
  unfold check_and_update at h
  split at h
  · simp at h
  · match hrel : get_latest_release tagResp contents fuel with
    | none => rw [hrel] at h; simp at h
    | some release =>
      rw [hrel] at h
      dsimp only at h
      split at h
      · simp at h
      · split at h
        · simp at h
        · have hdlno : Ev.checkedSd ∉ (download_and_update fetch release fs).2.1 := by
            intro hd
            unfold download_and_update at hd
            dsimp only at hd
            by_cases hok : (dlFiles fetch release.tag release.files fs).2.2 = true
            · rw [if_pos hok] at hd
              match hw : UpdaterUtils.write_version
                  (dlFiles fetch release.tag release.files fs).1 release.tag with
              | some fs2 =>
                rw [hw] at hd
                dsimp only at hd
                rcases List.mem_cons.mp hd with hbad | hd
                · simp at hbad
                · rcases List.mem_append.mp hd with hd | hbad
                  · exact dlFiles_no_checkedSd fetch release.tag release.files fs hd
                  · rcases List.mem_cons.mp hbad with hbad | hbad
                    · simp at hbad
                    · rcases List.mem_cons.mp hbad with hbad | hbad
                      · simp at hbad
                      · simp at hbad
              | none =>
                rw [hw] at hd
                dsimp only at hd
                rcases List.mem_cons.mp hd with hbad | hd
                · simp at hbad
                · exact dlFiles_no_checkedSd fetch release.tag release.files fs hd
            · rw [if_neg hok] at hd
              rcases List.mem_cons.mp hd with hbad | hd
              · simp at hbad
              · exact dlFiles_no_checkedSd fetch release.tag release.files fs hd
          match hdl : download_and_update fetch release fs with
          | (fs1, evs, true) =>
            rw [hdl] at h
            dsimp only at h
            rw [hdl] at hdlno
            match hw : UpdaterUtils.write_version fs1 release.tag with
            | some fs2 =>
              rw [hw] at h
              dsimp only at h
              rcases List.mem_append.mp h with h | hbad
              · exact hdlno h
              · rcases List.mem_cons.mp hbad with hbad | hbad
                · simp at hbad
                · rcases List.mem_cons.mp hbad with hbad | hbad
                  · simp at hbad
                  · simp at hbad
            | none =>
              rw [hw] at h
              exact hdlno h
          | (fs1, evs, false) =>
            rw [hdl] at h
            rw [hdl] at hdlno
            exact hdlno h

end GithubUpdater

/-- Claim C10: every manifest `get_all_py_files` can produce is a subset of
the fixed whitelist `FILES_TO_UPDATE`; every live write performed by
`check_and_update` targets a whitelisted path; and neither `boot.py` nor
`sensors/isns20.py` is in the whitelist — so they are never downloaded or
written by a network update, regardless of the release contents. -/
theorem C10_manifest_subset_of_whitelist :
    (∀ (contents : Option (List GithubUpdater.Item)) (fuel : Nat) (pre : String),
      ∀ e ∈ GithubUpdater.get_all_py_files contents fuel pre,
        e.path ∈ GithubUpdater.FILES_TO_UPDATE) ∧
    (∀ (connected : Bool) (tagResp : Option String)
      (contents : Option (List GithubUpdater.Item)) (fuel : Nat)
      (fetch : String → String → Option String) (fs : FSys.FS) (p : String),
      Ev.wroteLive p ∈
          (GithubUpdater.check_and_update connected tagResp contents fuel fetch fs).2.1 →
        p ∈ GithubUpdater.FILES_TO_UPDATE) ∧
    "boot.py" ∉ GithubUpdater.FILES_TO_UPDATE ∧
    "sensors/isns20.py" ∉ GithubUpdater.FILES_TO_UPDATE := by
  refine ⟨GithubUpdater.get_all_py_files_subset, ?_, by decide, by decide⟩
  intro connected tagResp contents fuel fetch fs p h
  rcases List.mem_map.mp (GithubUpdater.check_and_update_wroteLive h) with ⟨e, he, hep⟩
  rw [← hep]
  exact GithubUpdater.get_all_py_files_subset contents fuel "" e he

/-- Witness for C10: both universally quantified conjuncts instantiated at
the concrete single-file release fixture. -/
theorem C10_manifest_subset_of_whitelist_witness :
    ((⟨"app.py", "app.py"⟩ : GithubUpdater.ManifestEntry) ∈
        GithubUpdater.get_all_py_files (some ghContents1) 9 "" ∧
      "app.py" ∈ GithubUpdater.FILES_TO_UPDATE) ∧
    (Ev.wroteLive "app.py" ∈
        (GithubUpdater.check_and_update true (some "v1.1.0") (some ghContents1) 9
          ghFetch ghFS0).2.1 ∧
      "app.py" ∈ GithubUpdater.FILES_TO_UPDATE) :=
  ⟨⟨by decide,
    C10_manifest_subset_of_whitelist.1 (some ghContents1) 9 "" ⟨"app.py", "app.py"⟩
      (by decide)⟩,
   ⟨by decide,
    C10_manifest_subset_of_whitelist.2.1 true (some "v1.1.0") (some ghContents1) 9
      ghFetch ghFS0 "app.py" (by decide)⟩⟩

/-- Claim C7 amended: the boot sequence consults the SD-card source exactly
when the GitHub phase did not report an applied update — for every input,
`checkedSd` is in the boot trace iff `github_updated` is `false` (so a
GitHub attempt that probed a newer version but failed still falls through
to the SD source, refuting the original claim's "success or failure"). -/
theorem C7_amended_sd_consulted_iff_github_not_updated
    (enabled wifiOk : Bool) (tagResp : Option String)
    (contents : Option (List GithubUpdater.Item)) (fuel : Nat)
    (fetch : String → String → Option String)
    (rollbackTrigger updateButton sdInitOk : Bool) (fs : FSys.FS) :
    Ev.checkedSd ∈ (Boot.boot enabled wifiOk tagResp contents fuel fetch
        rollbackTrigger updateButton sdInitOk fs).2.1 ↔
      (Boot.boot enabled wifiOk tagResp contents fuel fetch
        rollbackTrigger updateButton sdInitOk fs).2.2.1 = false := by
  unfold Boot.boot
  dsimp only
  by_cases hew : (enabled && wifiOk) = true
  · rw [if_pos hew]
    by_cases hres : (GithubUpdater.check_and_update wifiOk tagResp contents fuel fetch fs).2.2
        = true
    · rw [hres]
      rw [if_neg (by simp)]
      dsimp only
      constructor
      · intro hmem
        exact absurd hmem
          (GithubUpdater.check_and_update_no_checkedSd wifiOk tagResp contents fuel fetch fs)
      · intro hcontr
        exact absurd hcontr (by simp)
    · have hres' : (GithubUpdater.check_and_update wifiOk tagResp contents fuel fetch fs).2.2
          = false := Bool.eq_false_iff.mpr hres
      rw [hres']
      rw [if_pos (by simp)]
      dsimp only
      simp
  · rw [if_neg hew]
    dsimp only
    rw [if_pos (by simp)]
    simp

namespace UpdaterUtils

lemma compare_versions_cases (a b : String) :
    compare_versions a b = 1 ∨ compare_versions a b = 0 ∨ compare_versions a b = -1 := by
  rw [compare_versions_eq]
  by_cases h : tupGt (parse_version b) (parse_version a) = true
  · rw [if_pos h]; exact Or.inl rfl
  · rw [if_neg h]
    by_cases he : parse_version b = parse_version a
    · rw [if_pos he]; right; left; rfl
    · rw [if_neg he]; right; right; rfl

end UpdaterUtils

namespace GithubUpdater

/-- The `download_and_update` trace always starts with the apply-phase
marker. -/
lemma download_trace_cons (fetch : String → String → Option String) (ri : ReleaseInfo)
    (fs : FSys.FS) :
    ∃ t, (download_and_update fetch ri fs).2.1 = Ev.applyStarted Source.github :: t := by
  unfold download_and_update
  dsimp only
  by_cases hok : (dlFiles fetch ri.tag ri.files fs).2.2 = true
  · rw [if_pos hok]
    match hw : UpdaterUtils.write_version (dlFiles fetch ri.tag ri.files fs).1 ri.tag with
    | some fs2 => exact ⟨_, rfl⟩
    | none => exact ⟨_, rfl⟩
  · rw [if_neg hok]
    exact ⟨_, rfl⟩

end GithubUpdater

/-- Claim C4 amended: the GitHub supervisor obeys the claim — with the WiFi
gate passed and a release bound, it enters the apply phase iff
`compare_versions(current, reported) = 1` (current read from the Version
Store, absence reading as `"0.0"`), and an equal-or-older comparison
returns "no update" with the filesystem untouched and no event emitted.
The SD supervisor does not (see the counterexample: its gate is the
lexicographic string comparison `new_version <= current`). -/
theorem C4_amended_github_iff_strictly_newer
    (tagResp : Option String) (contents : Option (List GithubUpdater.Item)) (fuel : Nat)
    (fetch : String → String → Option String) (fs : FSys.FS)
    (ri : GithubUpdater.ReleaseInfo)
    (hrel : GithubUpdater.get_latest_release tagResp contents fuel = some ri)
    (htag : ri.tag ≠ "") :
    (Ev.applyStarted Source.github ∈
        (GithubUpdater.check_and_update true tagResp contents fuel fetch fs).2.1 ↔
      UpdaterUtils.compare_versions ((UpdaterUtils.read_version fs).getD "0.0") ri.tag
        = 1) ∧
    (UpdaterUtils.compare_versions ((UpdaterUtils.read_version fs).getD "0.0") ri.tag ≤ 0 →
      GithubUpdater.check_and_update true tagResp contents fuel fetch fs
        = (fs, [], false)) := by
  have hunfold :
      GithubUpdater.check_and_update true tagResp contents fuel fetch fs =
        (if UpdaterUtils.compare_versions ((UpdaterUtils.read_version fs).getD "0.0")
            ri.tag ≤ 0 then ((fs, [], false) : FSys.FS × List Ev × Bool)
         else
          match GithubUpdater.download_and_update fetch ri fs with
          | (fs1, evs, true) =>
            match UpdaterUtils.write_version fs1 ri.tag with
            | some fs2 =>
              (fs2, evs ++ [Ev.versionWritten ri.tag, Ev.rebootRequested], true)
            | none => (fs1, evs, false)
          | (fs1, evs, false) => (fs1, evs, false)) := by
    unfold GithubUpdater.check_and_update
    rw [if_neg (by simp)]
    rw [hrel]
    dsimp only
    rw [if_neg htag]
  constructor
  · constructor
    · intro hmem
      by_cases hle : UpdaterUtils.compare_versions
          ((UpdaterUtils.read_version fs).getD "0.0") ri.tag ≤ 0
      · rw [hunfold, if_pos hle] at hmem
        simp at hmem
      · rcases UpdaterUtils.compare_versions_cases
            ((UpdaterUtils.read_version fs).getD "0.0") ri.tag with h1 | h0 | hm1
        · exact h1
        · exact absurd (by rw [h0]) hle
        · exact absurd (by rw [hm1]; norm_num) hle
    · intro h1
      have hle : ¬ UpdaterUtils.compare_versions
          ((UpdaterUtils.read_version fs).getD "0.0") ri.tag ≤ 0 := by
        rw [h1]; norm_num
      rw [hunfold, if_neg hle]
      rcases GithubUpdater.download_trace_cons fetch ri fs with ⟨t, ht⟩
      match hdl : GithubUpdater.download_and_update fetch ri fs with
      | (fs1, evs, true) =>
        have hevs : evs = Ev.applyStarted Source.github :: t := by
          rw [hdl] at ht
          exact ht
        match hw : UpdaterUtils.write_version fs1 ri.tag with
        | some fs2 =>
          dsimp only
          rw [hw]
          dsimp only
          rw [hevs]
          exact List.mem_cons_self _ _
        | none =>
          dsimp only
          rw [hw]
          dsimp only
          rw [hevs]
          exact List.mem_cons_self _ _
      | (fs1, evs, false) =>
        have hevs : evs = Ev.applyStarted Source.github :: t := by
          rw [hdl] at ht
          exact ht
        dsimp only
        rw [hevs]
        exact List.mem_cons_self _ _
  · intro hle
    rw [hunfold, if_pos hle]

/-- Witness for the amended C4 theorem: the single-file release fixture,
where the stored version is absent and the release is strictly newer, so
the apply phase is entered. -/
theorem C4_amended_github_iff_strictly_newer_witness :
    (GithubUpdater.get_latest_release (some "v1.1.0") (some ghContents1) 9 =
        some { tag := "1.1.0", files := [⟨"app.py", "app.py"⟩] } ∧
      ("1.1.0" : String) ≠ "") ∧
    (Ev.applyStarted Source.github ∈
        (GithubUpdater.check_and_update true (some "v1.1.0") (some ghContents1) 9
          ghFetch ghFS0).2.1 ↔
      UpdaterUtils.compare_versions ((UpdaterUtils.read_version ghFS0).getD "0.0")
        "1.1.0" = 1) :=
  ⟨⟨by decide, by decide⟩,
   (C4_amended_github_iff_strictly_newer (some "v1.1.0") (some ghContents1) 9 ghFetch
      ghFS0 { tag := "1.1.0", files := [⟨"app.py", "app.py"⟩] } (by decide)
      (by decide)).1⟩

namespace FSys

lemma lookupA_updateA : ∀ (l : List (List Char × String)) (k p : List Char) (v : String),
    lookupA (updateA l k v) p = if p = k then some v else lookupA l p := by
  intro l k
  induction l with
  | nil =>
    intro p v
    by_cases h : p = k
    · simp [updateA, lookupA, h]
    · simp [updateA, lookupA, h, Ne.symm h]
  | cons kv t ih =>
    intro p v
    rcases kv with ⟨a, b⟩
    rw [updateA]
    by_cases hak : a = k
    · rw [if_pos hak]
      by_cases hpk : p = k
      · rw [if_pos hpk, lookupA, if_pos hpk.symm]
      · rw [if_neg hpk]
        subst hak
        rw [lookupA, if_neg (fun h => hpk h.symm), lookupA, if_neg (fun h => hpk h.symm)]
    · rw [if_neg hak, lookupA]
      by_cases hap : a = p
      · have hpk : ¬ p = k := fun h => hak (by rw [hap, h])
        rw [if_pos hap, if_neg hpk, lookupA, if_pos hap]
      · rw [if_neg hap, ih p v]
        by_cases hpk : p = k
        · rw [if_pos hpk, if_pos hpk]
        · rw [if_neg hpk, if_neg hpk, lookupA, if_neg hap]

lemma mem_updateA : ∀ {l : List (List Char × String)} {k : List Char} {v : String}
    {kv : List Char × String}, kv ∈ updateA l k v → kv = (k, v) ∨ kv ∈ l := by
  intro l k v
  induction l with
  | nil =>
    intro kv h
    simp [updateA] at h
    exact Or.inl h
  | cons hd t ih =>
    intro kv h
    rcases hd with ⟨a, b⟩
    rw [updateA] at h
    split at h
    · rcases List.mem_cons.mp h with rfl | ht
      · exact Or.inl rfl
      · exact Or.inr (List.mem_cons_of_mem _ ht)
    · rcases List.mem_cons.mp h with rfl | ht
      · exact Or.inr (List.mem_cons_self _ _)
      · rcases ih ht with hkv | hkv
        · exact Or.inl hkv
        · exact Or.inr (List.mem_cons_of_mem _ hkv)

lemma map_fst_updateA_of_mem : ∀ {l : List (List Char × String)} {k : List Char}
    (v : String), k ∈ l.map Prod.fst →
      (updateA l k v).map Prod.fst = l.map Prod.fst := by
  intro l k v
  induction l with
  | nil => intro h; simp at h
  | cons hd t ih =>
    intro h
    rcases hd with ⟨a, b⟩
    rw [updateA]
    by_cases hak : a = k
    · rw [if_pos hak, List.map_cons, List.map_cons, hak]
    · rw [if_neg hak, List.map_cons, List.map_cons]
      rcases List.mem_cons.mp h with hk | hk
      · exact absurd hk.symm hak
      · rw [ih hk]

lemma map_fst_updateA_of_not_mem : ∀ {l : List (List Char × String)} {k : List Char}
    (v : String), k ∉ l.map Prod.fst →
      (updateA l k v).map Prod.fst = l.map Prod.fst ++ [k] := by
  intro l k v
  induction l with
  | nil => intro _; simp [updateA]
  | cons hd t ih =>
    intro h
    rcases hd with ⟨a, b⟩
    rw [updateA]
    by_cases hak : a = k
    · exact absurd (by rw [hak]; exact List.mem_cons_self _ _) h
    · rw [if_neg hak, List.map_cons, List.map_cons, ih (fun hk => h (List.mem_cons_of_mem _ hk)),
        List.cons_append]

lemma nodup_map_fst_updateA {l : List (List Char × String)} {k : List Char} (v : String)
    (h : (l.map Prod.fst).Nodup) : ((updateA l k v).map Prod.fst).Nodup := by
  by_cases hk : k ∈ l.map Prod.fst
  · rw [map_fst_updateA_of_mem v hk]; exact h
  · rw [map_fst_updateA_of_not_mem v hk]
    rw [List.nodup_append]
    exact ⟨h, List.nodup_singleton _, by
      intro a ha hb
      rcases List.mem_singleton.mp hb with rfl
      exact hk ha⟩

lemma lookupA_removeA : ∀ (l : List (List Char × String)) (k p : List Char),
    lookupA (removeA l k) p = if p = k then none else lookupA l p := by
  intro l k
  induction l with
  | nil =>
    intro p
    by_cases h : p = k <;> simp [removeA, lookupA, h]
  | cons hd t ih =>
    intro p
    rcases hd with ⟨a, b⟩
    rw [removeA]
    by_cases hak : a = k
    · rw [if_pos hak, ih p]
      by_cases hpk : p = k
      · rw [if_pos hpk, if_pos hpk]
      · rw [if_neg hpk, if_neg hpk, lookupA, if_neg (fun h => hpk (by rw [← h, hak]))]
    · rw [if_neg hak, lookupA]
      by_cases hap : a = p
      · have hpk : ¬ p = k := fun h => hak (by rw [hap, h])
        rw [if_pos hap, if_neg hpk, lookupA, if_pos hap]
      · rw [if_neg hap, ih p]
        by_cases hpk : p = k
        · rw [if_pos hpk, if_pos hpk]
        · rw [if_neg hpk, if_neg hpk, lookupA, if_neg hap]

lemma removeA_sublist : ∀ (l : List (List Char × String)) (k : List Char),
    (removeA l k).Sublist l := by
  intro l k
  induction l with
  | nil => simp [removeA]
  | cons hd t ih =>
    rcases hd with ⟨a, b⟩
    rw [removeA]
    by_cases hak : a = k
    · rw [if_pos hak]
      exact ih.cons _
    · rw [if_neg hak]
      exact ih.cons₂ _

lemma mem_removeA : ∀ {l : List (List Char × String)} {k : List Char}
    {kv : List Char × String}, kv ∈ removeA l k → kv ∈ l ∧ kv.1 ≠ k := by
  intro l k
  induction l with
  | nil => intro kv h; simp [removeA] at h
  | cons hd t ih =>
    intro kv h
    rcases hd with ⟨a, b⟩
    rw [removeA] at h
    split at h
    next hak =>
      rcases ih h with ⟨hm, hne⟩
      exact ⟨List.mem_cons_of_mem _ hm, hne⟩
    next hak =>
      rcases List.mem_cons.mp h with rfl | ht
      · exact ⟨List.mem_cons_self _ _, hak⟩
      · rcases ih ht with ⟨hm, hne⟩
        exact ⟨List.mem_cons_of_mem _ hm, hne⟩

lemma lookupA_some_mem : ∀ {l : List (List Char × String)} {p : List Char} {v : String},
    lookupA l p = some v → (p, v) ∈ l := by
  intro l
  induction l with
  | nil => intro p v h; simp [lookupA] at h
  | cons hd t ih =>
    intro p v h
    rcases hd with ⟨a, b⟩
    rw [lookupA] at h
    split at h
    next hap =>
      injection h with h
      subst hap
      subst h
      exact List.mem_cons_self _ _
    next hap => exact List.mem_cons_of_mem _ (ih h)

lemma lookupA_isSome_of_mem : ∀ {l : List (List Char × String)} {p : List Char}
    {v : String}, (p, v) ∈ l → (lookupA l p).isSome := by
  intro l
  induction l with
  | nil => intro p v h; simp at h
  | cons hd t ih =>
    intro p v h
    rcases hd with ⟨a, b⟩
    rw [lookupA]
    by_cases hap : a = p
    · rw [if_pos hap]; rfl
    · rw [if_neg hap]
      rcases List.mem_cons.mp h with heq | ht
      · injection heq with h1 h2
        exact absurd h1.symm hap
      · exact ih ht

lemma startsWithL_append_self : ∀ (a r : List Char), startsWithL a (a ++ r) = true := by
  intro a
  induction a with
  | nil => intro r; rfl
  | cons c cs ih =>
    intro r
    rw [List.cons_append, startsWithL, if_pos rfl]
    exact ih r

lemma startsWithL_exists : ∀ {a b : List Char}, startsWithL a b = true → ∃ r, b = a ++ r := by
  intro a
  induction a with
  | nil => intro b _; exact ⟨b, rfl⟩
  | cons c cs ih =>
    intro b h
    match b with
    | [] => simp [startsWithL] at h
    | d :: ds =>
      rw [startsWithL] at h
      split at h
      next hcd =>
        rcases ih h with ⟨r, rfl⟩
        exact ⟨r, by rw [hcd]; rfl⟩
      next => simp at h

lemma endsWithL_exists {suf l : List Char} (h : endsWithL suf l = true) :
    ∃ r, l = r ++ suf := by
  unfold endsWithL at h
  rcases startsWithL_exists h with ⟨r, hr⟩
  refine ⟨r.reverse, ?_⟩
  have := congrArg List.reverse hr
  rw [List.reverse_reverse, List.reverse_append, List.reverse_reverse] at this
  exact this

end FSys

namespace FSys

/-- Well-formedness: no duplicate file keys, no duplicate directories, and
no path is both a file and a directory. -/
def Wf (fs : FS) : Prop :=
  (fs.files.map Prod.fst).Nodup ∧ fs.dirs.Nodup ∧ ∀ kv ∈ fs.files, kv.1 ∉ fs.dirs

lemma openW_spec {fs : FS} {p c : String} {fs' : FS} (h : fs.openW p c = some fs') :
    fs'.files = updateA fs.files (canonP p) c ∧ fs'.dirs = fs.dirs ∧
      canonP p ∉ fs.dirs := by
  unfold FS.openW at h
  dsimp only at h
  split at h
  · simp at h
  next hdir =>
    split at h
    · injection h with h
      subst h
      exact ⟨rfl, rfl, hdir⟩
    · simp at h

lemma mkdir_spec {fs : FS} {p : String} {fs' : FS} (h : fs.mkdir p = some fs') :
    fs'.files = fs.files ∧ fs'.dirs = fs.dirs ++ [canonP p] ∧
      canonP p ∉ fs.dirs ∧ lookupA fs.files (canonP p) = none ∧ canonP p ≠ [] := by
  unfold FS.mkdir at h
  dsimp only at h
  split at h
  · simp at h
  next h1 =>
    split at h
    · simp at h
    next h2 =>
      split at h
      · simp at h
      next h3 =>
        split at h
        · injection h with h
          subst h
          refine ⟨rfl, rfl, h1, ?_, h3⟩
          rcases ho : lookupA fs.files (canonP p) with _ | v
          · rfl
          · exact absurd (by rw [ho]; rfl) h2
        · simp at h

lemma rmdir_spec {fs : FS} {p : String} {fs' : FS} (h : fs.rmdir p = some fs') :
    fs'.files = fs.files ∧
      fs'.dirs = fs.dirs.filter (fun e => decide (e ≠ canonP p)) ∧
      canonP p ∈ fs.dirs ∧
      (∀ kv ∈ fs.files, startsWithL (canonP p ++ ['/']) kv.1 = false) ∧
      (∀ e ∈ fs.dirs, startsWithL (canonP p ++ ['/']) e = false) := by
  unfold FS.rmdir at h
  dsimp only at h
  split at h
  next h1 =>
    split at h
    · simp at h
    next h2 =>
      injection h with h
      subst h
      simp only [Bool.or_eq_true, not_or, List.any_eq_true, not_exists] at h2
      refine ⟨rfl, rfl, h1, ?_, ?_⟩
      · intro kv hkv
        have := h2.1 kv
        simp only [not_and] at this
        exact Bool.eq_false_iff.mpr (this hkv)
      · intro e he
        have := h2.2 e
        simp only [not_and] at this
        exact Bool.eq_false_iff.mpr (this he)
  · simp at h

lemma remove_spec {fs : FS} {p : String} {fs' : FS} (h : fs.remove p = some fs') :
    fs'.files = removeA fs.files (canonP p) ∧ fs'.dirs = fs.dirs := by
  unfold FS.remove at h
  dsimp only at h
  split at h
  · injection h with h
    subst h
    exact ⟨rfl, rfl⟩
  · simp at h

lemma statIsDir_true {fs : FS} {p : String} (h : fs.statIsDir p = some true) :
    canonP p = [] ∨ canonP p ∈ fs.dirs := by
  unfold FS.statIsDir at h
  dsimp only at h
  split at h
  next h1 => exact h1
  · split at h
    · simp at h
    · simp at h

lemma statIsDir_false {fs : FS} {p : String} (h : fs.statIsDir p = some false) :
    ¬(canonP p = [] ∨ canonP p ∈ fs.dirs) ∧ (lookupA fs.files (canonP p)).isSome := by
  unfold FS.statIsDir at h
  dsimp only at h
  split at h
  · simp at h
  next h1 =>
    split at h
    next h2 => exact ⟨h1, h2⟩
    · simp at h

lemma listdir_spec {fs : FS} {p : String} {es : List String} (h : fs.listdir p = some es) :
    (canonP p = [] ∨ canonP p ∈ fs.dirs) ∧
      es = (fs.files.filterMap fun kv =>
              (childName? (canonP p) kv.1).map fun n => (⟨n⟩ : String)) ++
           (fs.dirs.filterMap fun e =>
              (childName? (canonP p) e).map fun n => (⟨n⟩ : String)) := by
  unfold FS.listdir at h
  dsimp only at h
  split at h
  next h1 =>
    injection h with h
    exact ⟨h1, h.symm⟩
  · simp at h

lemma wf_openW {fs fs' : FS} {p c : String} (hw : Wf fs) (h : fs.openW p c = some fs') :
    Wf fs' := by
  rcases openW_spec h with ⟨hf, hd, hnd⟩
  refine ⟨?_, ?_, ?_⟩
  · rw [hf]
    exact nodup_map_fst_updateA _ hw.1
  · rw [hd]
    exact hw.2.1
  · intro kv hkv
    rw [hd]
    rw [hf] at hkv
    rcases mem_updateA hkv with rfl | hm
    · exact hnd
    · exact hw.2.2 kv hm

lemma wf_mkdir {fs fs' : FS} {p : String} (hw : Wf fs) (h : fs.mkdir p = some fs') :
    Wf fs' := by
  rcases mkdir_spec h with ⟨hf, hd, hnew, hnof, _⟩
  refine ⟨?_, ?_, ?_⟩
  · rw [hf]
    exact hw.1
  · rw [hd, ← List.concat_eq_append]
    exact hw.2.1.concat hnew
  · intro kv hkv
    rw [hd]
    rw [hf] at hkv
    intro hmem
    rcases List.mem_append.mp hmem with hold | hnewm
    · exact hw.2.2 kv hkv hold
    · rcases List.mem_singleton.mp hnewm with heq
      have := lookupA_isSome_of_mem (p := kv.1) (v := kv.2) (by rcases kv with ⟨a, b⟩; exact hkv)
      rw [heq] at this
      rw [hnof] at this
      exact Bool.false_ne_true this

lemma wf_rmdir {fs fs' : FS} {p : String} (hw : Wf fs) (h : fs.rmdir p = some fs') :
    Wf fs' := by
  rcases rmdir_spec h with ⟨hf, hd, _, _, _⟩
  refine ⟨?_, ?_, ?_⟩
  · rw [hf]
    exact hw.1
  · rw [hd]
    exact hw.2.1.filter _
  · intro kv hkv
    rw [hd]
    rw [hf] at hkv
    intro hmem
    exact hw.2.2 kv hkv (List.mem_of_mem_filter hmem)

lemma wf_remove {fs fs' : FS} {p : String} (hw : Wf fs) (h : fs.remove p = some fs') :
    Wf fs' := by
  rcases remove_spec h with ⟨hf, hd⟩
  refine ⟨?_, ?_, ?_⟩
  · rw [hf]
    exact ((removeA_sublist _ _).map Prod.fst).nodup hw.1
  · rw [hd]
    exact hw.2.1
  · intro kv hkv
    rw [hd]
    rw [hf] at hkv
    exact hw.2.2 kv (mem_removeA hkv).1

end FSys

namespace UpdaterUtils

open FSys

/-- Canonical path of the backup folder. -/
def bkp : List Char := "backup".data

/-- Backup key for a live destination path `d`. -/
def bkey (d : List Char) : List Char := bkp ++ '/' :: d

/-- A live destination path inside the sensors directory. -/
def sdst (m : List Char) : List Char := "sensors".data ++ '/' :: m

/-- Decides whether a canonical path lies in the backup region. -/
def isBackupB (p : List Char) : Bool :=
  decide (p = bkp) || startsWithL (bkp ++ ['/']) p

/-- The filesystem carries no backup entry at all. -/
def NoBackup (fs : FS) : Prop :=
  (∀ kv ∈ fs.files, isBackupB kv.1 = false) ∧ (∀ d ∈ fs.dirs, isBackupB d = false)

/-- Shape of a backup destination path under the depth-one restriction:
either a slash-free root-level `.py` name, or `sensors/` followed by a
slash-free `.py` name. -/
def BDst (d : List Char) : Prop :=
  ('/' ∉ d ∧ endsWithL ".py".data d = true) ∨
    (∃ m, d = sdst m ∧ '/' ∉ m ∧ endsWithL ".py".data m = true)

/-- Invariant tying the working filesystem to the original `fs0` during the
backup/restore/cleanup round trip: well-formedness, agreement with `fs0`
outside the backup region, and exact shape and faithfulness of the backup
region. -/
structure BInv (fs0 fs : FS) : Prop where
  wf : Wf fs
  live : ∀ p, isBackupB p = false → lookupA fs.files p = lookupA fs0.files p
  bfile : ∀ kv ∈ fs.files, isBackupB kv.1 = true →
    (∃ d, kv.1 = bkey d ∧ '/' ∉ d ∧ endsWithL ".py".data d = true ∧
      lookupA fs0.files d = some kv.2) ∨
    (∃ m, kv.1 = bkey (sdst m) ∧ '/' ∉ m ∧ endsWithL ".py".data m = true ∧
      lookupA fs0.files (sdst m) = some kv.2 ∧ bkey "sensors".data ∈ fs.dirs)
  bdir : ∀ t ∈ fs.dirs, isBackupB t = true → t = bkp ∨ t = bkey "sensors".data

lemma bkey_eq_append (d : List Char) : bkey d = (bkp ++ ['/']) ++ d := by
  unfold bkey
  rw [List.append_assoc]
  rfl

lemma isBackupB_bkey (d : List Char) : isBackupB (bkey d) = true := by
  unfold isBackupB
  rw [bkey_eq_append, startsWithL_append_self]
  simp

lemma isBackupB_bkp : isBackupB bkp = true := by decide

lemma bkey_inj {d d' : List Char} (h : bkey d = bkey d') : d = d' := by
  unfold bkey at h
  exact List.cons_injective.eq_iff.mp (List.append_cancel_left h)

lemma isBackup_false_ne_bkey {p : List Char} (h : isBackupB p = false) (d : List Char) :
    p ≠ bkey d := by
  intro hp
  rw [hp, isBackupB_bkey] at h
  exact Bool.false_ne_true h.symm

lemma isBackup_false_ne_bkp {p : List Char} (h : isBackupB p = false) : p ≠ bkp := by
  intro hp
  rw [hp, isBackupB_bkp] at h
  exact Bool.false_ne_true h.symm

lemma py_getLast {d : List Char} (h : endsWithL ".py".data d = true) :
    d.getLast? = some 'y' := by
  rcases endsWithL_exists h with ⟨r, rfl⟩
  rw [List.getLast?_append]
  rfl

lemma py_ne_nil {d : List Char} (h : endsWithL ".py".data d = true) : d ≠ [] := by
  intro hd
  rw [hd] at h
  simp [endsWithL, startsWithL] at h

lemma py_ne_bkp {d : List Char} (h : endsWithL ".py".data d = true) : d ≠ bkp := by
  intro hd
  have := py_getLast h
  rw [hd] at this
  exact absurd this (by decide)

lemma py_ne_dot {d : List Char} (h : endsWithL ".py".data d = true) : d ≠ ['.'] := by
  intro hd
  have := py_getLast h
  rw [hd] at this
  exact absurd this (by decide)

lemma py_ne_sensors {d : List Char} (h : endsWithL ".py".data d = true) :
    d ≠ "sensors".data := by
  intro hd
  have := py_getLast h
  rw [hd] at this
  exact absurd this (by decide)

lemma sdst_head (m : List Char) : (sdst m).head? = some 's' := rfl

lemma sdst_ne_bkp (m : List Char) : sdst m ≠ bkp := by
  intro h
  have h1 : (sdst m).head? = some 's' := rfl
  rw [h] at h1
  exact absurd h1 (by decide)

lemma sdst_inj {m m' : List Char} (h : sdst m = sdst m') : m = m' := by
  unfold sdst at h
  exact List.cons_injective.eq_iff.mp (List.append_cancel_left h)

lemma canonL_eq_self {d : List Char} (h1 : d ≠ ['.']) (h2 : d.head? ≠ some '/') :
    canonL d = d := by
  unfold canonL
  split
  · exact absurd rfl h1
  · exact absurd rfl h2
  · rfl

lemma head?_mem {c : Char} : ∀ {l : List Char}, l.head? = some c → c ∈ l := by
  intro l h
  match l with
  | [] => simp at h
  | a :: t =>
    injection h with h
    rw [h]
    exact List.mem_cons_self _ _

lemma BDst_canon {d : List Char} (h : BDst d) : canonL d = d := by
  rcases h with ⟨hs, hpy⟩ | ⟨m, rfl, hs, hpy⟩
  · refine canonL_eq_self (py_ne_dot hpy) ?_
    intro hh
    exact hs (head?_mem hh)
  · refine canonL_eq_self ?_ ?_
    · intro hh
      have h1 : (sdst m).head? = some 's' := rfl
      rw [hh] at h1
      exact absurd h1 (by decide)
    · rw [sdst_head]
      intro hh
      injection hh with hh
      exact absurd hh (by decide)

lemma startsWith_bkp_slash_mem {d : List Char}
    (h : startsWithL (bkp ++ ['/']) d = true) : '/' ∈ d := by
  rcases startsWithL_exists h with ⟨r, rfl⟩
  exact List.mem_append_left _ (List.mem_append_right _ (List.mem_singleton.mpr rfl))

lemma BDst_not_backup {d : List Char} (h : BDst d) : isBackupB d = false := by
  rcases h with ⟨hs, hpy⟩ | ⟨m, rfl, hs, hpy⟩
  · unfold isBackupB
    rw [Bool.or_eq_false_iff]
    constructor
    · exact decide_eq_false (py_ne_bkp hpy)
    · rcases hb : startsWithL (bkp ++ ['/']) d with _ | _
      · rfl
      · exact absurd (startsWith_bkp_slash_mem hb) hs
  · unfold isBackupB
    rw [Bool.or_eq_false_iff]
    constructor
    · exact decide_eq_false (sdst_ne_bkp m)
    · rcases hb : startsWithL (bkp ++ ['/']) (sdst m) with _ | _
      · rfl
      · exfalso
        rcases startsWithL_exists hb with ⟨r, hr⟩
        have h1 : (sdst m).head? = some 's' := rfl
        rw [hr] at h1
        have h2 : ((bkp ++ ['/']) ++ r).head? = some 'b' := rfl
        rw [h1] at h2
        injection h2 with h2
        exact absurd h2 (by decide)

end UpdaterUtils

namespace FSys

lemma mkdir_none_spec {fs : FS} {p : String} (h : fs.mkdir p = none) :
    canonP p ∈ fs.dirs ∨ (lookupA fs.files (canonP p)).isSome = true ∨
      canonP p = [] ∨ ¬(parentL (canonP p) = [] ∨ parentL (canonP p) ∈ fs.dirs) := by
  unfold FS.mkdir at h
  dsimp only at h
  split at h
  next h1 => exact Or.inl h1
  next h1 =>
    split at h
    next h2 => exact Or.inr (Or.inl h2)
    next h2 =>
      split at h
      next h3 => exact Or.inr (Or.inr (Or.inl h3))
      next h3 =>
        split at h
        · simp at h
        next h4 => exact Or.inr (Or.inr (Or.inr h4))

lemma rmdir_none_of_not_dir {fs : FS} {p : String} (h : canonP p ∉ fs.dirs) :
    fs.rmdir p = none := by
  unfold FS.rmdir
  dsimp only
  rw [if_neg h]

end FSys

namespace UpdaterUtils

open FSys

/-- `fs` with a fresh, empty backup directory appended — the state in which
`create_backup` runs its file scan. -/
def mkBackupDir (fs : FS) : FS := { fs with dirs := fs.dirs ++ [bkp] }

/-- Number of slashes in a path. -/
def slashes (l : List Char) : Nat := (l.filter fun c => decide (c = '/')).length

lemma slashes_append (a b : List Char) : slashes (a ++ b) = slashes a + slashes b := by
  unfold slashes
  rw [List.filter_append, List.length_append]

lemma slashes_eq_zero {l : List Char} (h : '/' ∉ l) : slashes l = 0 := by
  unfold slashes
  rw [List.length_eq_zero]
  rw [List.filter_eq_nil]
  intro a ha
  simp only [decide_eq_true_eq]
  intro hc
  exact h (hc ▸ ha)

lemma slashes_pos {l : List Char} (h : '/' ∈ l) : 1 ≤ slashes l := by
  unfold slashes
  rw [Nat.succ_le_iff, List.length_pos]
  intro hnil
  rw [List.filter_eq_nil] at hnil
  exact absurd (by simp : decide (('/' : Char) = '/') = true) (by simpa using hnil '/' h)

/-- Under the depth-one restriction, every `scan_dir` path has the `BDst`
shape. -/
lemma PyPath_BDst {d : List Char} (hp : PyPath d) (hd : slashes d ≤ 1) : BDst d := by
  rcases hp with ⟨ph, ent, rfl, hslash, hpy, _, hph⟩
  rcases hph with rfl | ⟨q, rfl, hq⟩
  · rw [List.nil_append]
    exact Or.inl ⟨hslash, hpy⟩
  · rcases hq with rfl | hqs
    · right
      refine ⟨ent, ?_, hslash, hpy⟩
      rw [List.nil_append, List.append_assoc]
      rfl
    · exfalso
      rw [slashes_append, slashes_append, slashes_append] at hd
      have h1 : 1 ≤ slashes q := slashes_pos hqs
      have h2 : slashes ['/'] = 1 := by decide
      omega

lemma canonP_backup : canonP BACKUP_FOLDER = bkp := rfl

lemma canonP_backup_child (t : String) :
    canonP (BACKUP_FOLDER ++ "/" ++ t) = bkey t.data := rfl

lemma sensors_ne_sdst (m : List Char) : "sensors".data ≠ sdst m := by
  intro h
  have hlen := congrArg List.length h
  have h1 : ("sensors".data).length = 7 := rfl
  have h2 : (sdst m).length = 8 + m.length := by
    unfold sdst
    rw [List.length_append]
    simp [Nat.add_comm]
  rw [h1, h2] at hlen
  omega

lemma no_file_bkey_sensors {fs0 fs : FS} (hinv : BInv fs0 fs) :
    (lookupA fs.files (bkey "sensors".data)).isSome = false := by
  rcases ho : lookupA fs.files (bkey "sensors".data) with _ | v
  · rfl
  · exfalso
    have hmem := lookupA_some_mem ho
    rcases hinv.bfile _ hmem (isBackupB_bkey _) with
      ⟨d, hk, _, hpy, _⟩ | ⟨m, hk, _, _, _, _⟩
    · exact py_ne_sensors hpy (bkey_inj hk).symm
    · exact sensors_ne_sdst m (bkey_inj hk)

lemma rmdir_backup_none {fs : FS} (hnb : NoBackup fs) : fs.rmdir BACKUP_FOLDER = none := by
  apply rmdir_none_of_not_dir
  intro hmem
  have hc : isBackupB bkp = false := hnb.2 _ hmem
  rw [isBackupB_bkp] at hc
  exact Bool.false_ne_true hc.symm

lemma mkdir_backup {fs : FS} (hnb : NoBackup fs) :
    fs.mkdir BACKUP_FOLDER = some (mkBackupDir fs) := by
  unfold FS.mkdir
  dsimp only
  rw [if_neg, if_neg, if_neg, if_pos]
  · rfl
  · exact Or.inl (by decide)
  · exact (by decide : canonP BACKUP_FOLDER ≠ [])
  · intro hs
    rcases Option.isSome_iff_exists.mp hs with ⟨v, hv⟩
    have hmem := lookupA_some_mem hv
    have hc : isBackupB bkp = false := hnb.1 _ hmem
    rw [isBackupB_bkp] at hc
    exact Bool.false_ne_true hc.symm
  · intro hmem
    have hc : isBackupB bkp = false := hnb.2 _ hmem
    rw [isBackupB_bkp] at hc
    exact Bool.false_ne_true hc.symm

lemma BInv_mkdir_any {fs0 fs fsA : FS} {p : String} (hinv : BInv fs0 fs)
    (hc : canonP p = bkp ∨ canonP p = bkey "sensors".data)
    (h : fs.mkdir p = some fsA) :
    BInv fs0 fsA ∧ ∀ t ∈ fs.dirs, t ∈ fsA.dirs := by
  rcases mkdir_spec h with ⟨hf, hd, _, _, _⟩
  refine ⟨⟨wf_mkdir hinv.wf h, ?_, ?_, ?_⟩, ?_⟩
  · intro q hq
    rw [hf]
    exact hinv.live q hq
  · intro kv hkv hb
    rw [hf] at hkv
    rcases hinv.bfile kv hkv hb with hleft | ⟨m, hk, hmn, hmpy, hl, hsens⟩
    · exact Or.inl hleft
    · exact Or.inr ⟨m, hk, hmn, hmpy, hl, by rw [hd]; exact List.mem_append_left _ hsens⟩
  · intro t ht hb
    rw [hd] at ht
    rcases List.mem_append.mp ht with hold | hnew
    · exact hinv.bdir t hold hb
    · rcases List.mem_singleton.mp hnew with rfl
      rcases hc with hc | hc
      · exact Or.inl hc
      · exact Or.inr hc
  · intro t ht
    rw [hd]
    exact List.mem_append_left _ ht

lemma BInv_openW_live {fs0 fs fs' : FS} {p c : String} (hinv : BInv fs0 fs)
    (hnb : isBackupB (canonP p) = false)
    (hfs0 : lookupA fs0.files (canonP p) = some c)
    (h : fs.openW p c = some fs') :
    BInv fs0 fs' ∧ fs'.dirs = fs.dirs := by
  rcases openW_spec h with ⟨hf, hd, _⟩
  refine ⟨⟨wf_openW hinv.wf h, ?_, ?_, ?_⟩, hd⟩
  · intro q hq
    rw [hf, lookupA_updateA]
    by_cases hqp : q = canonP p
    · rw [if_pos hqp, hqp, hfs0]
    · rw [if_neg hqp]
      exact hinv.live q hq
  · intro kv hkv hb
    rw [hf] at hkv
    rcases mem_updateA hkv with rfl | hm
    · rw [hnb] at hb
      exact absurd hb (by simp)
    · rcases hinv.bfile kv hm hb with hleft | ⟨m, hk, hmn, hmpy, hl, hsens⟩
      · exact Or.inl hleft
      · exact Or.inr ⟨m, hk, hmn, hmpy, hl, by rw [hd]; exact hsens⟩
  · intro t ht hb
    rw [hd] at ht
    exact hinv.bdir t ht hb

lemma BInv_openW_bkey {fs0 fs fs' : FS} {p c : String} {d : List Char}
    (hinv : BInv fs0 fs) (hkey : canonP p = bkey d) (hBd : BDst d)
    (hfs0 : lookupA fs0.files d = some c)
    (hsens : (∃ m, d = sdst m) → bkey "sensors".data ∈ fs.dirs)
    (h : fs.openW p c = some fs') :
    BInv fs0 fs' ∧ fs'.dirs = fs.dirs := by
  rcases openW_spec h with ⟨hf, hd, _⟩
  refine ⟨⟨wf_openW hinv.wf h, ?_, ?_, ?_⟩, hd⟩
  · intro q hq
    rw [hf, lookupA_updateA]
    rw [hkey]
    rw [if_neg (isBackup_false_ne_bkey hq d)]
    exact hinv.live q hq
  · intro kv hkv hb
    rw [hf] at hkv
    rcases mem_updateA hkv with rfl | hm
    · rw [hkey]
      rcases hBd with ⟨hnos, hpy⟩ | ⟨m, hm, hmn, hmpy⟩
      · exact Or.inl ⟨d, rfl, hnos, hpy, hfs0⟩
      · refine Or.inr ⟨m, by rw [hm], hmn, hmpy, by rw [← hm]; exact hfs0, ?_⟩
        rw [hd]
        exact hsens ⟨m, hm⟩
    · rcases hinv.bfile kv hm hb with hleft | ⟨m, hk, hmn, hmpy, hl, hsens'⟩
      · exact Or.inl hleft
      · exact Or.inr ⟨m, hk, hmn, hmpy, hl, by rw [hd]; exact hsens'⟩
  · intro t ht hb
    rw [hd] at ht
    exact hinv.bdir t ht hb

lemma backupFile_BInv {fs0 fs : FS} (hinv : BInv fs0 fs) (hbkp : bkp ∈ fs.dirs)
    {s : String} (hB : BDst s.data) :
    BInv fs0 (backupFile fs s s) ∧ ∀ t ∈ fs.dirs, t ∈ (backupFile fs s s).dirs := by
  unfold backupFile
  match ho : fs.openR s with
  | none => exact ⟨hinv, fun t ht => ht⟩
  | some content =>
    dsimp only
    have hfs0 : lookupA fs0.files s.data = some content := by
      rw [← hinv.live s.data (BDst_not_backup hB)]
      have h1 : lookupA fs.files (canonL s.data) = some content := ho
      rw [BDst_canon hB] at h1
      exact h1
    by_cases hsl : '/' ∈ s.data
    · rw [if_pos hsl]
      rcases hB with ⟨hnos, _⟩ | ⟨m, hm, hmn, hmpy⟩
      · exact absurd hsl hnos
      · have hpar : parentL s.data = "sensors".data := by
          unfold parentL
          rw [hm]
          unfold sdst
          rw [splitLastSlash_append hmn]
        have hckey : canonP (BACKUP_FOLDER ++ "/" ++ (⟨parentL s.data⟩ : String))
            = bkey "sensors".data := by
          rw [canonP_backup_child]
          rw [show ((⟨parentL s.data⟩ : String)).data = parentL s.data from rfl, hpar]
        match hmk : fs.mkdir (BACKUP_FOLDER ++ "/" ++ (⟨parentL s.data⟩ : String)) with
        | some fsA =>
          dsimp only
          rcases BInv_mkdir_any hinv (Or.inr hckey) hmk with ⟨hinvA, hmonoA⟩
          have hsensA : bkey "sensors".data ∈ fsA.dirs := by
            rcases mkdir_spec hmk with ⟨_, hd, _, _, _⟩
            rw [hd, hckey]
            exact List.mem_append_right _ (List.mem_singleton.mpr rfl)
          match hw : fsA.openW (BACKUP_FOLDER ++ "/" ++ s) content with
          | some f3 =>
            dsimp only
            rcases BInv_openW_bkey hinvA (canonP_backup_child s)
              (Or.inr ⟨m, hm, hmn, hmpy⟩) hfs0 (fun _ => hsensA) hw with ⟨hinv3, hd3⟩
            exact ⟨hinv3, fun t ht => by rw [hd3]; exact hmonoA t ht⟩
          | none =>
            dsimp only
            exact ⟨hinvA, hmonoA⟩
        | none =>
          dsimp only
          have hsens1 : bkey "sensors".data ∈ fs.dirs := by
            rcases mkdir_none_spec hmk with h1 | h1 | h1 | h1
            · rw [hckey] at h1
              exact h1
            · rw [hckey] at h1
              rw [no_file_bkey_sensors hinv] at h1
              exact absurd h1 (by simp)
            · rw [hckey] at h1
              exact absurd h1 (by decide)
            · exfalso
              apply h1
              rw [hckey]
              have hploc : parentL (bkey "sensors".data) = bkp := by decide
              rw [hploc]
              exact Or.inr hbkp
          match hw : fs.openW (BACKUP_FOLDER ++ "/" ++ s) content with
          | some f3 =>
            dsimp only
            rcases BInv_openW_bkey hinv (canonP_backup_child s)
              (Or.inr ⟨m, hm, hmn, hmpy⟩) hfs0 (fun _ => hsens1) hw with ⟨hinv3, hd3⟩
            exact ⟨hinv3, fun t ht => by rw [hd3]; exact ht⟩
          | none =>
            dsimp only
            exact ⟨hinv, fun t ht => ht⟩
    · rw [if_neg hsl]
      have hnsd : (∃ m, s.data = sdst m) → bkey "sensors".data ∈ fs.dirs := by
        rintro ⟨m, hm⟩
        exfalso
        apply hsl
        rw [hm]
        exact List.mem_append_right _ (List.mem_cons_self _ _)
      match hw : fs.openW (BACKUP_FOLDER ++ "/" ++ s) content with
      | some f3 =>
        dsimp only
        rcases BInv_openW_bkey hinv (canonP_backup_child s) hB hfs0 hnsd hw with
          ⟨hinv3, hd3⟩
        exact ⟨hinv3, fun t ht => by rw [hd3]; exact ht⟩
      | none =>
        dsimp only
        exact ⟨hinv, fun t ht => ht⟩

lemma backupFiles_BInv {fs0 : FS} :
    ∀ (l : List (String × String)) (fs : FS), BInv fs0 fs → bkp ∈ fs.dirs →
      (∀ pr ∈ l, pr.1 = pr.2 ∧ BDst pr.2.data) →
      BInv fs0 (backupFiles l fs) ∧ bkp ∈ (backupFiles l fs).dirs := by
  intro l
  induction l with
  | nil => intro fs hinv hbkp _; exact ⟨hinv, hbkp⟩
  | cons pr rest ih =>
    intro fs hinv hbkp hl
    rcases pr with ⟨s1, s2⟩
    rcases hl (s1, s2) (List.mem_cons_self _ _) with ⟨heq, hBd⟩
    dsimp only at heq
    subst heq
    rw [backupFiles]
    rcases backupFile_BInv hinv hbkp (s := s1) hBd with ⟨hinv', hmono⟩
    exact ih (backupFile fs s1 s1) hinv' (hmono _ hbkp)
      (fun pr hpr => hl pr (List.mem_cons_of_mem _ hpr))

lemma create_backup_spec {fs0 : FS} (hwf : Wf fs0) (hnb : NoBackup fs0) (fuel : Nat)
    (hdepth : ∀ pr ∈ list_python_files (mkBackupDir fs0) fuel ".",
      slashes pr.2.data ≤ 1) :
    (create_backup fuel fs0).2 = true ∧ BInv fs0 (create_backup fuel fs0).1 ∧
      bkp ∈ (create_backup fuel fs0).1.dirs := by
  have hcreate : create_backup fuel fs0 =
      (backupFiles (list_python_files (mkBackupDir fs0) fuel ".") (mkBackupDir fs0),
        true) := by
    unfold create_backup
    rw [rmdir_backup_none hnb]
    dsimp only
    rw [mkdir_backup hnb]
  have hbkp_not : bkp ∉ fs0.dirs := by
    intro hm
    have hc : isBackupB bkp = false := hnb.2 _ hm
    rw [isBackupB_bkp] at hc
    exact Bool.false_ne_true hc.symm
  have hinv2 : BInv fs0 (mkBackupDir fs0) := by
    refine ⟨⟨hwf.1, ?_, ?_⟩, ?_, ?_, ?_⟩
    · rw [show (mkBackupDir fs0).dirs = fs0.dirs ++ [bkp] from rfl,
        ← List.concat_eq_append]
      exact hwf.2.1.concat hbkp_not
    · intro kv hkv hmem
      rcases List.mem_append.mp hmem with hold | hnew
      · exact hwf.2.2 kv hkv hold
      · rcases List.mem_singleton.mp hnew with heq
        have hc := hnb.1 kv hkv
        rw [heq, isBackupB_bkp] at hc
        exact Bool.false_ne_true hc.symm
    · intro q _
      rfl
    · intro kv hkv hb
      have hc := hnb.1 kv hkv
      rw [hb] at hc
      exact absurd hc (by simp)
    · intro t ht hb
      rcases List.mem_append.mp ht with hold | hnew
      · have hc := hnb.2 t hold
        rw [hb] at hc
        exact absurd hc (by simp)
      · exact Or.inl (List.mem_singleton.mp hnew)
  have hbkp2 : bkp ∈ (mkBackupDir fs0).dirs :=
    List.mem_append_right _ (List.mem_singleton.mpr rfl)
  have hshape : ∀ pr ∈ list_python_files (mkBackupDir fs0) fuel ".",
      pr.1 = pr.2 ∧ BDst pr.2.data := by
    intro pr hpr
    have hpr' := hpr
    unfold list_python_files at hpr'
    match hls : (mkBackupDir fs0).listdir "." with
    | none =>
      rw [hls] at hpr'
      simp at hpr'
    | some entries =>
      rw [hls] at hpr'
      dsimp only at hpr'
      rcases scan_dir_shape _ fuel "." entries (Or.inl rfl) (listdir_no_slash hls) pr hpr'
        with ⟨heq, hpy⟩
      exact ⟨heq, PyPath_BDst hpy (hdepth pr hpr)⟩
  rcases backupFiles_BInv _ _ hinv2 hbkp2 hshape with ⟨hfin, hbfin⟩
  rw [hcreate]
  exact ⟨rfl, hfin, hbfin⟩

lemma bkey_ne_nil (d : List Char) : bkey d ≠ [] := by
  intro h
  have := congrArg List.length h
  have h1 : (bkey d).length = 7 + d.length := by
    unfold bkey
    rw [List.length_append, List.length_cons]
    have : bkp.length = 6 := rfl
    omega
  rw [h1] at this
  simp at this

lemma bkey_ne_bkp (d : List Char) : bkey d ≠ bkp := by
  intro h
  have := congrArg List.length h
  have h1 : (bkey d).length = 7 + d.length := by
    unfold bkey
    rw [List.length_append, List.length_cons]
    have : bkp.length = 6 := rfl
    omega
  have h2 : bkp.length = 6 := rfl
  rw [h1, h2] at this
  omega

lemma BInv_mkdir_nonbackup {fs0 fs fsA : FS} {p : String} (hinv : BInv fs0 fs)
    (hc : isBackupB (canonP p) = false)
    (h : fs.mkdir p = some fsA) :
    BInv fs0 fsA ∧ ∀ t ∈ fs.dirs, t ∈ fsA.dirs := by
  rcases mkdir_spec h with ⟨hf, hd, _, _, _⟩
  refine ⟨⟨wf_mkdir hinv.wf h, ?_, ?_, ?_⟩, ?_⟩
  · intro q hq
    rw [hf]
    exact hinv.live q hq
  · intro kv hkv hb
    rw [hf] at hkv
    rcases hinv.bfile kv hkv hb with hleft | ⟨m, hk, hmn, hmpy, hl, hsens⟩
    · exact Or.inl hleft
    · exact Or.inr ⟨m, hk, hmn, hmpy, hl, by rw [hd]; exact List.mem_append_left _ hsens⟩
  · intro t ht hb
    rw [hd] at ht
    rcases List.mem_append.mp ht with hold | hnew
    · exact hinv.bdir t hold hb
    · rcases List.mem_singleton.mp hnew with rfl
      rw [hc] at hb
      exact absurd hb (by simp)
  · intro t ht
    rw [hd]
    exact List.mem_append_left _ ht

lemma sdst_ne_dot (m : List Char) : sdst m ≠ ['.'] := by
  intro h
  have h1 : (sdst m).head? = some 's' := rfl
  rw [h] at h1
  exact absurd h1 (by decide)

lemma canonL_sdst (m : List Char) : canonL (sdst m) = sdst m := by
  refine canonL_eq_self (sdst_ne_dot m) ?_
  rw [sdst_head]
  intro hh
  injection hh with hh
  exact absurd hh (by decide)

lemma canonP_sens_child (f sf : String) (hf : f.data = "sensors".data) :
    canonP (f ++ "/" ++ sf) = sdst sf.data := by
  unfold canonP
  have hdata : (f ++ "/" ++ sf).data = "sensors".data ++ ("/".data ++ sf.data) := by
    rw [data_append, data_append, hf, List.append_assoc]
  rw [hdata]
  exact canonL_sdst sf.data

lemma canonP_backup_child2 (f sf : String) :
    canonP (BACKUP_FOLDER ++ "/" ++ f ++ "/" ++ sf)
      = bkey (f.data ++ '/' :: sf.data) := by
  unfold canonP bkey
  simp only [data_append, List.append_assoc]
  rfl

lemma mem_slash_sdst (m : List Char) : '/' ∈ sdst m :=
  List.mem_append_right _ (List.mem_cons_self _ _)

lemma restoreSub_BInv {fs0 : FS} {f : String} (hf : f.data = "sensors".data) :
    ∀ (ms : List String) (fs : FS), BInv fs0 fs →
      BInv fs0 (restoreSub f ms fs) ∧ (restoreSub f ms fs).dirs = fs.dirs := by
  intro ms
  induction ms with
  | nil => intro fs hinv; exact ⟨hinv, rfl⟩
  | cons sf rest ih =>
    intro fs hinv
    rw [restoreSub]
    match ho : fs.openR (BACKUP_FOLDER ++ "/" ++ f ++ "/" ++ sf) with
    | none => exact ⟨hinv, rfl⟩
    | some content =>
      dsimp only
      have hkeyr : lookupA fs.files (bkey (f.data ++ '/' :: sf.data)) = some content := by
        have h1 : lookupA fs.files (canonP (BACKUP_FOLDER ++ "/" ++ f ++ "/" ++ sf))
            = some content := ho
        rw [canonP_backup_child2] at h1
        exact h1
      have hmem := lookupA_some_mem hkeyr
      rcases hinv.bfile _ hmem (isBackupB_bkey _) with
        ⟨d, hk, hdn, _, _⟩ | ⟨m, hk, hmn, hmpy, hl, _⟩
      · exfalso
        have hde := bkey_inj hk
        apply hdn
        rw [← hde, hf]
        exact List.mem_append_right _ (List.mem_cons_self _ _)
      · have hde : f.data ++ '/' :: sf.data = sdst m := bkey_inj hk
        have hsf : sf.data = m := by
          rw [hf] at hde
          exact sdst_inj hde
        subst hsf
        match hw : fs.openW (f ++ "/" ++ sf) content with
        | some fs' =>
          dsimp only
          have hlive : lookupA fs0.files (canonP (f ++ "/" ++ sf)) = some content := by
            rw [canonP_sens_child f sf hf]
            exact hl
          have hnbk : isBackupB (canonP (f ++ "/" ++ sf)) = false := by
            rw [canonP_sens_child f sf hf]
            exact BDst_not_backup (Or.inr ⟨sf.data, rfl, hmn, hmpy⟩)
          rcases BInv_openW_live hinv hnbk hlive hw with ⟨hinv', hd'⟩
          rcases ih fs' hinv' with ⟨hinv'', hd''⟩
          exact ⟨hinv'', by rw [hd'', hd']⟩
        | none => exact ⟨hinv, rfl⟩

lemma canonL_sensors : canonL "sensors".data = "sensors".data := by decide

lemma restoreEntry_BInv {fs0 fs : FS} (hinv : BInv fs0 fs) (f : String) :
    BInv fs0 (restoreEntry fs f) ∧ ∀ t ∈ fs.dirs, t ∈ (restoreEntry fs f).dirs := by
  unfold restoreEntry
  dsimp only
  match hst : fs.statIsDir (BACKUP_FOLDER ++ "/" ++ f) with
  | none => exact ⟨hinv, fun t ht => ht⟩
  | some true =>
    dsimp only
    have hdir : bkey f.data ∈ fs.dirs := by
      rcases statIsDir_true hst with h1 | h1
      · rw [canonP_backup_child] at h1
        exact absurd h1 (bkey_ne_nil _)
      · rw [canonP_backup_child] at h1
        exact h1
    have hf : f.data = "sensors".data := by
      rcases hinv.bdir _ hdir (isBackupB_bkey _) with h1 | h1
      · exact absurd h1 (bkey_ne_bkp _)
      · exact bkey_inj h1
    have hcan : canonP f = "sensors".data := by
      unfold canonP
      rw [hf]
      exact canonL_sensors
    match hmk : fs.mkdir f with
    | some fsA =>
      dsimp only
      rcases BInv_mkdir_nonbackup hinv (by rw [hcan]; decide) hmk with ⟨hinvA, hmonoA⟩
      match hls : fsA.listdir (BACKUP_FOLDER ++ "/" ++ f) with
      | none => exact ⟨hinvA, hmonoA⟩
      | some subfiles =>
        dsimp only
        rcases restoreSub_BInv hf subfiles fsA hinvA with ⟨hinv', hd'⟩
        exact ⟨hinv', fun t ht => by rw [hd']; exact hmonoA t ht⟩
    | none =>
      dsimp only
      match hls : fs.listdir (BACKUP_FOLDER ++ "/" ++ f) with
      | none => exact ⟨hinv, fun t ht => ht⟩
      | some subfiles =>
        dsimp only
        rcases restoreSub_BInv hf subfiles fs hinv with ⟨hinv', hd'⟩
        exact ⟨hinv', fun t ht => by rw [hd']; exact ht⟩
  | some false =>
    dsimp only
    match ho : fs.openR (BACKUP_FOLDER ++ "/" ++ f) with
    | none => exact ⟨hinv, fun t ht => ht⟩
    | some content =>
      dsimp only
      have hkeyr : lookupA fs.files (bkey f.data) = some content := by
        have h1 : lookupA fs.files (canonP (BACKUP_FOLDER ++ "/" ++ f))
            = some content := ho
        rw [canonP_backup_child] at h1
        exact h1
      rcases hinv.bfile _ (lookupA_some_mem hkeyr) (isBackupB_bkey _) with
        ⟨d, hk, hdn, hdpy, hl⟩ | ⟨m, hk, hmn, hmpy, hl, _⟩
      · have hde := bkey_inj hk
        have hBd : BDst f.data := Or.inl ⟨by rw [hde]; exact hdn, by rw [hde]; exact hdpy⟩
        have hcanf : canonP f = f.data := BDst_canon hBd
        match hw : fs.openW f content with
        | some fs' =>
          dsimp only
          rcases BInv_openW_live hinv (by rw [hcanf]; exact BDst_not_backup hBd)
            (by rw [hcanf, hde]; exact hl) hw with ⟨hinv', hd'⟩
          exact ⟨hinv', fun t ht => by rw [hd']; exact ht⟩
        | none => exact ⟨hinv, fun t ht => ht⟩
      · have hde := bkey_inj hk
        have hBd : BDst f.data := Or.inr ⟨m, hde, hmn, hmpy⟩
        have hcanf : canonP f = f.data := BDst_canon hBd
        match hw : fs.openW f content with
        | some fs' =>
          dsimp only
          rcases BInv_openW_live hinv (by rw [hcanf]; exact BDst_not_backup hBd)
            (by rw [hcanf, hde]; exact hl) hw with ⟨hinv', hd'⟩
          exact ⟨hinv', fun t ht => by rw [hd']; exact ht⟩
        | none => exact ⟨hinv, fun t ht => ht⟩

lemma restoreEntries_BInv {fs0 : FS} :
    ∀ (l : List String) (fs : FS), BInv fs0 fs →
      BInv fs0 (restoreEntries l fs) ∧
        ∀ t ∈ fs.dirs, t ∈ (restoreEntries l fs).dirs := by
  intro l
  induction l with
  | nil => intro fs hinv; exact ⟨hinv, fun t ht => ht⟩
  | cons f rest ih =>
    intro fs hinv
    rw [restoreEntries]
    rcases restoreEntry_BInv hinv f with ⟨hinv', hmono'⟩
    rcases ih (restoreEntry fs f) hinv' with ⟨hinv'', hmono''⟩
    exact ⟨hinv'', fun t ht => hmono'' t (hmono' t ht)⟩

lemma isBackupB_false_of (p : List Char) (hne : p ≠ bkp)
    (hst : startsWithL (bkp ++ ['/']) p = false) : isBackupB p = false := by
  unfold isBackupB
  rw [hst]
  simp [hne]

lemma restore_backup_spec {fs0 fs : FS} (hinv : BInv fs0 fs) (hbkp : bkp ∈ fs.dirs) :
    BInv fs0 (restore_backup fs).1 ∧
      (bkp ∈ (restore_backup fs).1.dirs ∨ NoBackup (restore_backup fs).1) := by
  unfold restore_backup
  match hls : fs.listdir BACKUP_FOLDER with
  | none => exact ⟨hinv, Or.inl hbkp⟩
  | some files =>
    dsimp only
    rcases restoreEntries_BInv files fs hinv with ⟨hinv', hmono'⟩
    have hbkp' : bkp ∈ (restoreEntries files fs).dirs := hmono' _ hbkp
    match hrm : (restoreEntries files fs).rmdir BACKUP_FOLDER with
    | none => exact ⟨hinv', Or.inl hbkp'⟩
    | some fs2 =>
      dsimp only
      rcases rmdir_spec hrm with ⟨hf, hd, _, hnof, hnod⟩
      rw [canonP_backup] at hd hnof hnod
      have hfileNB : ∀ kv ∈ (restoreEntries files fs).files, isBackupB kv.1 = false := by
        intro kv hkv
        refine isBackupB_false_of _ ?_ (hnof kv hkv)
        intro hkb
        exact hinv'.wf.2.2 kv hkv (hkb ▸ hbkp')
      have hnb2 : NoBackup fs2 := by
        constructor
        · intro kv hkv
          rw [hf] at hkv
          exact hfileNB kv hkv
        · intro e he
          rw [hd] at he
          have hmem := List.mem_of_mem_filter he
          have hne : e ≠ bkp := by
            have := List.of_mem_filter he
            simpa using this
          exact isBackupB_false_of _ hne (hnod e hmem)
      refine ⟨⟨wf_rmdir hinv'.wf hrm, ?_, ?_, ?_⟩, Or.inr hnb2⟩
      · intro q hq
        rw [hf]
        exact hinv'.live q hq
      · intro kv hkv hb
        rw [hf] at hkv
        rw [hfileNB kv hkv] at hb
        exact absurd hb (by simp)
      · intro t ht hb
        rw [hnb2.2 t ht] at hb
        exact absurd hb (by simp)

lemma string_ext {a b : String} (h : a.data = b.data) : a = b := by
  cases a
  cases b
  cases h
  rfl

end UpdaterUtils

namespace FSys

lemma statIsDir_none {fs : FS} {p : String} (h : fs.statIsDir p = none) :
    canonP p ∉ fs.dirs ∧ lookupA fs.files (canonP p) = none := by
  unfold FS.statIsDir at h
  dsimp only at h
  split at h
  · simp at h
  next h1 =>
    split at h
    · simp at h
    next h2 =>
      refine ⟨fun hm => h1 (Or.inr hm), ?_⟩
      rcases ho : lookupA fs.files (canonP p) with _ | v
      · rfl
      · exact absurd (by rw [ho]; rfl) h2

lemma listdir_none_spec {fs : FS} {p : String} (h : fs.listdir p = none) :
    ¬(canonP p = [] ∨ canonP p ∈ fs.dirs) := by
  unfold FS.listdir at h
  dsimp only at h
  split at h
  · simp at h
  next h1 => exact h1

lemma rmdir_some {fs : FS} {p : String} (hmem : canonP p ∈ fs.dirs)
    (hfe : ∀ kv ∈ fs.files, startsWithL (canonP p ++ ['/']) kv.1 = false)
    (hde : ∀ e ∈ fs.dirs, startsWithL (canonP p ++ ['/']) e = false) :
    fs.rmdir p = some { fs with
      dirs := fs.dirs.filter (fun e => decide (e ≠ canonP p)) } := by
  unfold FS.rmdir
  dsimp only
  rw [if_pos hmem, if_neg]
  intro hc
  rcases Bool.or_eq_true_iff.mp hc with hc | hc
  · rcases List.any_eq_true.mp hc with ⟨kv, hkv, hst⟩
    rw [hfe kv hkv] at hst
    exact Bool.false_ne_true hst
  · rcases List.any_eq_true.mp hc with ⟨e, he, hst⟩
    rw [hde e he] at hst
    exact Bool.false_ne_true hst

lemma remove_some {fs : FS} {p : String}
    (h : (lookupA fs.files (canonP p)).isSome = true) :
    fs.remove p = some { fs with files := removeA fs.files (canonP p) } := by
  unfold FS.remove
  dsimp only
  rw [if_pos h]

lemma childName?_append {a e : List Char} (he : '/' ∉ e) :
    childName? a (a ++ '/' :: e) = some e := by
  unfold childName?
  rw [splitLastSlash_append he]
  dsimp only
  rw [if_pos rfl]

lemma childName?_some_eq {d q n : List Char} (h : childName? d q = some n) :
    q = d ++ '/' :: n ∨ (d = [] ∧ q = n) := by
  unfold childName? at h
  match hq : splitLastSlash q with
  | some (p, m) =>
    rw [hq] at h
    dsimp only at h
    split at h
    next hp =>
      injection h with h
      subst h
      subst hp
      exact Or.inl (splitLastSlash_some hq).1
    · simp at h
  | none =>
    rw [hq] at h
    dsimp only at h
    split at h
    next hp =>
      injection h with h
      subst h
      exact Or.inr ⟨hp.1, rfl⟩
    · simp at h

end FSys

namespace UpdaterUtils

open FSys

lemma bkey_sdst_eq (m : List Char) :
    bkey (sdst m) = (bkey "sensors".data ++ ['/']) ++ m := by
  unfold bkey sdst
  simp only [List.append_assoc, List.cons_append, List.singleton_append,
    List.nil_append]

lemma bkey_sdst_cons (m : List Char) :
    bkey (sdst m) = bkey "sensors".data ++ '/' :: m := by
  rw [bkey_sdst_eq, List.append_assoc, List.singleton_append]

lemma startsWith_bkeySens (m : List Char) :
    startsWithL (bkey "sensors".data ++ ['/']) (bkey (sdst m)) = true := by
  rw [bkey_sdst_eq]
  exact startsWithL_append_self _ _

lemma childName?_bkp_bkey {d : List Char} (hd : '/' ∉ d) :
    childName? bkp (bkey d) = some d := by
  unfold bkey
  exact childName?_append hd

lemma childName?_sens {m : List Char} (hm : '/' ∉ m) :
    childName? (bkey "sensors".data) (bkey (sdst m)) = some m := by
  rw [bkey_sdst_cons]
  exact childName?_append hm

lemma isBackupB_false_elim {p : List Char} (h : isBackupB p = false) :
    p ≠ bkp ∧ startsWithL (bkp ++ ['/']) p = false := by
  unfold isBackupB at h
  rcases Bool.or_eq_false_iff.mp h with ⟨h1, h2⟩
  exact ⟨by simpa using h1, h2⟩

lemma listdir_backup_none {fs : FS} (h : bkp ∉ fs.dirs) :
    fs.listdir BACKUP_FOLDER = none := by
  unfold FS.listdir
  dsimp only
  rw [if_neg]
  rintro (hc | hc)
  · exact absurd hc (by decide)
  · exact h hc

lemma BInv_remove_bkey {fs0 fs fs' : FS} {p : String} {d : List Char}
    (hinv : BInv fs0 fs) (hkey : canonP p = bkey d) (h : fs.remove p = some fs') :
    BInv fs0 fs' ∧ fs'.dirs = fs.dirs ∧
      (∀ kv ∈ fs'.files, kv ∈ fs.files ∧ kv.1 ≠ bkey d) ∧
      (∀ q, q ≠ bkey d → lookupA fs'.files q = lookupA fs.files q) := by
  rcases remove_spec h with ⟨hf, hd⟩
  rw [hkey] at hf
  have hmm : ∀ kv ∈ fs'.files, kv ∈ fs.files ∧ kv.1 ≠ bkey d := by
    intro kv hkv
    rw [hf] at hkv
    exact mem_removeA hkv
  have hlk : ∀ q, q ≠ bkey d → lookupA fs'.files q = lookupA fs.files q := by
    intro q hq
    rw [hf, lookupA_removeA, if_neg hq]
  refine ⟨⟨wf_remove hinv.wf h, ?_, ?_, ?_⟩, hd, hmm, hlk⟩
  · intro q hq
    rw [hlk q (isBackup_false_ne_bkey hq d)]
    exact hinv.live q hq
  · intro kv hkv hb
    rcases hinv.bfile kv (hmm kv hkv).1 hb with hleft | ⟨m, hk, hmn, hmpy, hl, hsens⟩
    · exact Or.inl hleft
    · exact Or.inr ⟨m, hk, hmn, hmpy, hl, by rw [hd]; exact hsens⟩
  · intro t ht hb
    rw [hd] at ht
    exact hinv.bdir t ht hb

lemma cleanupSub_spec {fs0 : FS} {f : String} (hf : f.data = "sensors".data) :
    ∀ (ms : List String) (fs : FS), BInv fs0 fs →
      (∀ sf ∈ ms, (lookupA fs.files (bkey (sdst sf.data))).isSome = true) →
      (ms.map String.data).Nodup →
      (∀ kv ∈ fs.files, startsWithL (bkey "sensors".data ++ ['/']) kv.1 = true →
        ∃ sf ∈ ms, kv.1 = bkey (sdst sf.data)) →
      (cleanupSub (BACKUP_FOLDER ++ "/" ++ f) ms fs).2 = true ∧
      BInv fs0 (cleanupSub (BACKUP_FOLDER ++ "/" ++ f) ms fs).1 ∧
      (cleanupSub (BACKUP_FOLDER ++ "/" ++ f) ms fs).1.dirs = fs.dirs ∧
      (∀ kv ∈ (cleanupSub (BACKUP_FOLDER ++ "/" ++ f) ms fs).1.files, kv ∈ fs.files) ∧
      (∀ kv ∈ (cleanupSub (BACKUP_FOLDER ++ "/" ++ f) ms fs).1.files,
        startsWithL (bkey "sensors".data ++ ['/']) kv.1 = false) := by
  intro ms
  induction ms with
  | nil =>
    intro fs hinv _ _ hcompl
    refine ⟨rfl, hinv, rfl, fun kv hkv => hkv, ?_⟩
    intro kv hkv
    cases hb : startsWithL (bkey "sensors".data ++ ['/']) kv.1 with
    | false => rfl
    | true =>
      rcases hcompl kv hkv hb with ⟨sf, hsf, _⟩
      simp at hsf
  | cons sf rest ih =>
    intro fs hinv hpres hnod hcompl
    have hck : canonP (BACKUP_FOLDER ++ "/" ++ f ++ "/" ++ sf)
        = bkey (sdst sf.data) := by
      rw [canonP_backup_child2, hf]
      rfl
    have hrme : fs.remove (BACKUP_FOLDER ++ "/" ++ f ++ "/" ++ sf) =
        some { fs with files := removeA fs.files (bkey (sdst sf.data)) } := by
      have h0 := @remove_some fs (BACKUP_FOLDER ++ "/" ++ f ++ "/" ++ sf)
        (by rw [hck]; exact hpres sf (List.mem_cons_self _ _))
      rw [hck] at h0
      exact h0
    rcases BInv_remove_bkey hinv hck hrme with ⟨hinv1, hd1, hmm1, hlk1⟩
    rw [cleanupSub, hrme]
    dsimp only
    have hpres1 : ∀ sf2 ∈ rest,
        (lookupA ({ fs with files := removeA fs.files (bkey (sdst sf.data)) } : FS).files
          (bkey (sdst sf2.data))).isSome = true := by
      intro sf2 hsf2
      have hne : sf2.data ≠ sf.data := by
        intro heq
        have := (List.nodup_cons.mp hnod).1
        exact this (heq ▸ List.mem_map_of_mem String.data hsf2)
      rw [hlk1 _ (fun hk => hne (sdst_inj (bkey_inj hk)))]
      exact hpres sf2 (List.mem_cons_of_mem _ hsf2)
    have hcompl1 : ∀ kv ∈ ({ fs with files := removeA fs.files (bkey (sdst sf.data)) } : FS).files,
        startsWithL (bkey "sensors".data ++ ['/']) kv.1 = true →
        ∃ sf2 ∈ rest, kv.1 = bkey (sdst sf2.data) := by
      intro kv hkv hst
      rcases hmm1 kv hkv with ⟨hmem, hne⟩
      rcases hcompl kv hmem hst with ⟨sf2, hsf2, hkey2⟩
      rcases List.mem_cons.mp hsf2 with rfl | hsf2r
      · exact absurd hkey2 hne
      · exact ⟨sf2, hsf2r, hkey2⟩
    rcases ih _ hinv1 hpres1 (List.nodup_cons.mp hnod).2 hcompl1 with
      ⟨hs2, hsinv, hsd, hsmem, hsst⟩
    refine ⟨hs2, hsinv, by rw [hsd, hd1], ?_, hsst⟩
    intro kv hkv
    exact (hmm1 kv (hsmem kv hkv)).1

lemma nodup_filterMap_childName {q : List Char} (hq : q ≠ []) :
    ∀ {l : List (List Char × String)}, (l.map Prod.fst).Nodup →
      (l.filterMap fun kv => childName? q kv.1).Nodup := by
  intro l
  induction l with
  | nil => intro _; simp
  | cons kv t ih =>
    intro h
    rw [List.map_cons, List.nodup_cons] at h
    rw [List.filterMap_cons]
    match hcn : childName? q kv.1 with
    | none => exact ih h.2
    | some n =>
      refine List.nodup_cons.mpr ⟨?_, ih h.2⟩
      intro hmem
      rcases List.mem_filterMap.mp hmem with ⟨kv2, hkv2, hcn2⟩
      have he1 : kv.1 = q ++ '/' :: n := by
        rcases childName?_some_eq hcn with hc | hc
        · exact hc
        · exact absurd hc.1 hq
      have he2 : kv2.1 = q ++ '/' :: n := by
        rcases childName?_some_eq hcn2 with hc | hc
        · exact hc
        · exact absurd hc.1 hq
      apply h.1
      rw [he1, ← he2]
      exact List.mem_map_of_mem Prod.fst hkv2

lemma map_data_filterMap (q : List Char) :
    ∀ (l : List (List Char × String)),
      ((l.filterMap fun kv =>
          (childName? q kv.1).map fun n => (⟨n⟩ : String)).map String.data)
        = l.filterMap fun kv => childName? q kv.1 := by
  intro l
  induction l with
  | nil => simp
  | cons kv t ih =>
    rw [List.filterMap_cons, List.filterMap_cons]
    match hcn : childName? q kv.1 with
    | none => exact ih
    | some n =>
      dsimp only [Option.map_some']
      rw [List.map_cons, ih]

lemma cleanupEntry_step {fs0 fs : FS} {f : String} {rest : List String}
    (hinv : BInv fs0 fs) (hbkp : bkp ∈ fs.dirs)
    (h1 : ∀ kv ∈ fs.files, ∀ d, kv.1 = bkey d → '/' ∉ d → (⟨d⟩ : String) ∈ f :: rest)
    (h2 : bkey "sensors".data ∈ fs.dirs → ("sensors" : String) ∈ f :: rest) :
    BInv fs0 (cleanupEntry fs f) ∧ bkp ∈ (cleanupEntry fs f).dirs ∧
      (∀ kv ∈ (cleanupEntry fs f).files, ∀ d, kv.1 = bkey d → '/' ∉ d →
        (⟨d⟩ : String) ∈ rest) ∧
      (bkey "sensors".data ∈ (cleanupEntry fs f).dirs →
        ("sensors" : String) ∈ rest) := by
  unfold cleanupEntry
  dsimp only
  match hst : fs.statIsDir (BACKUP_FOLDER ++ "/" ++ f) with
  | none =>
    rcases statIsDir_none hst with ⟨hnd, hnf⟩
    rw [canonP_backup_child] at hnd hnf
    refine ⟨hinv, hbkp, ?_, ?_⟩
    · intro kv hkv d hkey hds
      rcases List.mem_cons.mp (h1 kv hkv d hkey hds) with heq | hmem
      · exfalso
        have hdf : d = f.data := congrArg String.data heq
        rcases kv with ⟨k, v⟩
        dsimp only at hkey
        have hm2 : (bkey f.data, v) ∈ fs.files := by
          rw [← hdf, ← hkey]
          exact hkv
        have hs2 := lookupA_isSome_of_mem hm2
        rw [hnf] at hs2
        simp at hs2
      · exact hmem
    · intro hsens
      rcases List.mem_cons.mp (h2 hsens) with heq | hmem
      · exfalso
        have hfs : f.data = "sensors".data := (congrArg String.data heq).symm
        exact hnd (by rw [hfs]; exact hsens)
      · exact hmem
  | some false =>
    dsimp only
    rcases statIsDir_false hst with ⟨_, hlk⟩
    rw [canonP_backup_child] at hlk
    have hrme : fs.remove (BACKUP_FOLDER ++ "/" ++ f) =
        some { fs with files := removeA fs.files (bkey f.data) } := by
      have h0 := @remove_some fs (BACKUP_FOLDER ++ "/" ++ f)
        (by rw [canonP_backup_child]; exact hlk)
      rw [canonP_backup_child] at h0
      exact h0
    rcases BInv_remove_bkey hinv (canonP_backup_child f) hrme with ⟨hinv1, _, hmm1, _⟩
    rw [hrme]
    dsimp only
    refine ⟨hinv1, hbkp, ?_, ?_⟩
    · intro kv hkv d hkey hds
      rcases hmm1 kv hkv with ⟨hmem, hne⟩
      rcases List.mem_cons.mp (h1 kv hmem d hkey hds) with heq | hm
      · exfalso
        have hdf : d = f.data := congrArg String.data heq
        exact hne (by rw [hkey, hdf])
      · exact hm
    · intro hsens
      rcases List.mem_cons.mp (h2 hsens) with heq | hm
      · exfalso
        have hfs : f.data = "sensors".data := (congrArg String.data heq).symm
        have hno := no_file_bkey_sensors hinv
        rw [← hfs, hlk] at hno
        simp at hno
      · exact hm
  | some true =>
    dsimp only
    have hdirmem : bkey f.data ∈ fs.dirs := by
      rcases statIsDir_true hst with hc | hc
      · rw [canonP_backup_child] at hc
        exact absurd hc (bkey_ne_nil _)
      · rw [canonP_backup_child] at hc
        exact hc
    have hf : f.data = "sensors".data := by
      rcases hinv.bdir _ hdirmem (isBackupB_bkey _) with hc | hc
      · exact absurd hc (bkey_ne_bkp _)
      · exact bkey_inj hc
    match hls : fs.listdir (BACKUP_FOLDER ++ "/" ++ f) with
    | none =>
      exact absurd (Or.inr (by rw [canonP_backup_child]; exact hdirmem))
        (listdir_none_spec hls)
    | some subfiles =>
      dsimp only
      rcases listdir_spec hls with ⟨_, hsub⟩
      rw [canonP_backup_child] at hsub
      have hdirch : (fs.dirs.filterMap fun e =>
          (childName? (bkey f.data) e).map fun n => (⟨n⟩ : String)) = [] := by
        rw [List.filterMap_eq_nil]
        intro e he
        rcases hcn : childName? (bkey f.data) e with _ | n
        · rfl
        · exfalso
          have he1 : e = bkey f.data ++ '/' :: n := by
            rcases childName?_some_eq hcn with hc | hc
            · exact hc
            · exact absurd hc.1 (bkey_ne_nil _)
          have he2 : e = bkey (sdst n) := by
            rw [he1, hf, bkey_sdst_cons]
          rcases hinv.bdir e he (by rw [he2]; exact isBackupB_bkey _) with hc | hc
          · exact bkey_ne_bkp (sdst n) (by rw [← he2]; exact hc)
          · exact sensors_ne_sdst n (bkey_inj (by rw [← he2]; exact hc)).symm
      rw [hdirch, List.append_nil] at hsub
      have hpres : ∀ s ∈ subfiles,
          (lookupA fs.files (bkey (sdst s.data))).isSome = true := by
        intro s hs
        rw [hsub] at hs
        rcases List.mem_filterMap.mp hs with ⟨kv, hkv, hmap⟩
        rcases Option.map_eq_some'.mp hmap with ⟨n, hcn, hsn⟩
        subst hsn
        have hk1 : kv.1 = bkey (sdst n) := by
          rcases childName?_some_eq hcn with hc | hc
          · rw [hc, hf, bkey_sdst_cons]
          · exact absurd hc.1 (bkey_ne_nil _)
        rcases kv with ⟨k, v⟩
        dsimp only at hk1
        have hm2 : (bkey (sdst n), v) ∈ fs.files := by
          rw [← hk1]
          exact hkv
        exact lookupA_isSome_of_mem hm2
      have hnodup : (subfiles.map String.data).Nodup := by
        rw [hsub, map_data_filterMap]
        exact nodup_filterMap_childName (bkey_ne_nil f.data) hinv.wf.1
      have hcompl : ∀ kv ∈ fs.files,
          startsWithL (bkey "sensors".data ++ ['/']) kv.1 = true →
          ∃ s ∈ subfiles, kv.1 = bkey (sdst s.data) := by
        intro kv hkv hst2
        rcases startsWithL_exists hst2 with ⟨r, hr⟩
        have hkb : kv.1 = bkey (sdst r) := by rw [hr, bkey_sdst_eq]
        rcases hinv.bfile kv hkv (by rw [hkb]; exact isBackupB_bkey _) with
          ⟨d, hk, hds, _, _⟩ | ⟨m, hk, hmn, _, _, _⟩
        · exfalso
          have hdr : d = sdst r := bkey_inj (by rw [← hk]; exact hkb)
          exact hds (by rw [hdr]; exact mem_slash_sdst r)
        · refine ⟨⟨m⟩, ?_, hk⟩
          rw [hsub]
          apply List.mem_filterMap.mpr
          refine ⟨kv, hkv, ?_⟩
          rw [hk, hf, childName?_sens hmn]
          rfl
      rcases cleanupSub_spec hf subfiles fs hinv hpres hnodup hcompl with
        ⟨hcs2, hcsinv, hcsd, hcsmem, hcsst⟩
      match hcs : cleanupSub (BACKUP_FOLDER ++ "/" ++ f) subfiles fs with
      | (fs1, b) =>
        rw [hcs] at hcs2 hcsinv hcsd hcsmem hcsst
        dsimp only at hcs2 hcsinv hcsd hcsmem hcsst
        subst hcs2
        dsimp only
        have hrmd : fs1.rmdir (BACKUP_FOLDER ++ "/" ++ f) = some { fs1 with dirs := fs1.dirs.filter (fun e => decide (e ≠ canonP (BACKUP_FOLDER ++ "/" ++ f))) } := by
          apply rmdir_some
          · rw [canonP_backup_child, hcsd]
            exact hdirmem
          · intro kv hkv
            rw [canonP_backup_child, hf]
            exact hcsst kv hkv
          · intro e he
            rw [canonP_backup_child, hf]
            rw [hcsd] at he
            cases hb : startsWithL (bkey "sensors".data ++ ['/']) e with
            | false => rfl
            | true =>
              exfalso
              rcases startsWithL_exists hb with ⟨r, hr⟩
              have heb : e = bkey (sdst r) := by rw [hr, bkey_sdst_eq]
              rcases hinv.bdir e he (by rw [heb]; exact isBackupB_bkey _) with hc | hc
              · exact bkey_ne_bkp (sdst r) (by rw [← heb]; exact hc)
              · exact sensors_ne_sdst r (bkey_inj (by rw [← heb]; exact hc)).symm
        rw [canonP_backup_child] at hrmd
        rw [hrmd]
        dsimp only
        refine ⟨⟨wf_rmdir hcsinv.wf hrmd, ?_, ?_, ?_⟩, ?_, ?_, ?_⟩
        · intro q hq
          exact hcsinv.live q hq
        · intro kv hkv hb
          rcases hcsinv.bfile kv hkv hb with ⟨d, hk, hds, hpy, hl⟩ | ⟨m, hk, _, _, _, _⟩
          · exact Or.inl ⟨d, hk, hds, hpy, hl⟩
          · exfalso
            have hfalse := hcsst kv hkv
            rw [hk, startsWith_bkeySens] at hfalse
            exact absurd hfalse (by decide)
        · intro t ht hb
          have hm := List.mem_of_mem_filter ht
          have hne : t ≠ bkey f.data := by
            simpa using List.of_mem_filter ht
          rcases hcsinv.bdir t hm hb with hc | hc
          · exact Or.inl hc
          · exfalso
            apply hne
            rw [hc, hf]
        · apply List.mem_filter.mpr
          refine ⟨by rw [hcsd]; exact hbkp, ?_⟩
          simp only [decide_eq_true_eq]
          exact Ne.symm (bkey_ne_bkp f.data)
        · intro kv hkv d hkey hds
          have hmemfs : kv ∈ fs.files := hcsmem kv hkv
          rcases List.mem_cons.mp (h1 kv hmemfs d hkey hds) with heq | hm
          · exfalso
            have hdf : d = f.data := congrArg String.data heq
            rcases hinv.bfile kv hmemfs (by rw [hkey]; exact isBackupB_bkey _) with
              ⟨d2, hk2, _, hpy2, _⟩ | ⟨m2, hk2, _, _, _, _⟩
            · have hdd : d = d2 := bkey_inj (by rw [← hkey]; exact hk2)
              exact py_ne_sensors hpy2 (by rw [← hdd, hdf, hf])
            · have hdd : d = sdst m2 := bkey_inj (by rw [← hkey]; exact hk2)
              exact hds (by rw [hdd]; exact mem_slash_sdst m2)
          · exact hm
        · intro hsens
          exfalso
          have hne : bkey "sensors".data ≠ bkey f.data := by
            simpa using List.of_mem_filter hsens
          apply hne
          rw [hf]

lemma cleanupEntries_spec {fs0 : FS} :
    ∀ (l : List String) (fs : FS), BInv fs0 fs → bkp ∈ fs.dirs →
      (∀ kv ∈ fs.files, ∀ d, kv.1 = bkey d → '/' ∉ d → (⟨d⟩ : String) ∈ l) →
      (bkey "sensors".data ∈ fs.dirs → ("sensors" : String) ∈ l) →
      BInv fs0 (cleanupEntries l fs) ∧ bkp ∈ (cleanupEntries l fs).dirs ∧
        (∀ kv ∈ (cleanupEntries l fs).files, isBackupB kv.1 = false) ∧
        (∀ t ∈ (cleanupEntries l fs).dirs, isBackupB t = true → t = bkp) := by
  intro l
  induction l with
  | nil =>
    intro fs hinv hbkp h1 h2
    refine ⟨hinv, hbkp, ?_, ?_⟩
    · intro kv hkv
      cases hb : isBackupB kv.1 with
      | false => rfl
      | true =>
        exfalso
        rcases hinv.bfile kv hkv hb with ⟨d, hk, hds, _, _⟩ | ⟨m, _, _, _, _, hsens⟩
        · simpa using h1 kv hkv d hk hds
        · simpa using h2 hsens
    · intro t ht hb
      rcases hinv.bdir t ht hb with hc | hc
      · exact hc
      · exact absurd (h2 (hc ▸ ht)) (by simp)
  | cons f rest ih =>
    intro fs hinv hbkp h1 h2
    rw [cleanupEntries]
    rcases cleanupEntry_step hinv hbkp h1 h2 with ⟨hinv', hbkp', h1', h2'⟩
    exact ih (cleanupEntry fs f) hinv' hbkp' h1' h2'

lemma cleanup_backup_spec {fs0 fs : FS} (hinv : BInv fs0 fs) (hbkp : bkp ∈ fs.dirs) :
    BInv fs0 (cleanup_backup fs) ∧ NoBackup (cleanup_backup fs) := by
  unfold cleanup_backup
  match hls : fs.listdir BACKUP_FOLDER with
  | none =>
    exact absurd (Or.inr (by rw [canonP_backup]; exact hbkp)) (listdir_none_spec hls)
  | some files =>
    dsimp only
    rcases listdir_spec hls with ⟨_, hsub⟩
    rw [canonP_backup] at hsub
    have h1 : ∀ kv ∈ fs.files, ∀ d, kv.1 = bkey d → '/' ∉ d →
        (⟨d⟩ : String) ∈ files := by
      intro kv hkv d hkey hds
      rw [hsub]
      apply List.mem_append_left
      apply List.mem_filterMap.mpr
      refine ⟨kv, hkv, ?_⟩
      rw [hkey, childName?_bkp_bkey hds]
      rfl
    have h2 : bkey "sensors".data ∈ fs.dirs → ("sensors" : String) ∈ files := by
      intro hsens
      rw [hsub]
      apply List.mem_append_right
      apply List.mem_filterMap.mpr
      refine ⟨bkey "sensors".data, hsens, ?_⟩
      rw [childName?_bkp_bkey (by decide)]
      rfl
    rcases cleanupEntries_spec files fs hinv hbkp h1 h2 with ⟨hinv1, hbkp1, hnf1, hnd1⟩
    have hrmd : (cleanupEntries files fs).rmdir BACKUP_FOLDER = some { cleanupEntries files fs with dirs := (cleanupEntries files fs).dirs.filter (fun e => decide (e ≠ canonP BACKUP_FOLDER)) } := by
      apply rmdir_some
      · rw [canonP_backup]
        exact hbkp1
      · intro kv hkv
        rw [canonP_backup]
        exact (isBackupB_false_elim (hnf1 kv hkv)).2
      · intro e he
        rw [canonP_backup]
        cases hb : isBackupB e with
        | false => exact (isBackupB_false_elim hb).2
        | true =>
          rw [hnd1 e he hb]
          decide
    rw [canonP_backup] at hrmd
    rw [hrmd]
    dsimp only
    have hnb2 : NoBackup { cleanupEntries files fs with dirs := (cleanupEntries files fs).dirs.filter (fun e => decide (e ≠ bkp)) } := by
      constructor
      · intro kv hkv
        exact hnf1 kv hkv
      · intro t ht
        cases hb : isBackupB t with
        | false => rfl
        | true =>
          exfalso
          have hne : t ≠ bkp := by simpa using List.of_mem_filter ht
          exact hne (hnd1 t (List.mem_of_mem_filter ht) hb)
    refine ⟨⟨wf_rmdir hinv1.wf hrmd, ?_, ?_, ?_⟩, hnb2⟩
    · intro q hq
      exact hinv1.live q hq
    · intro kv hkv hb
      rw [hnf1 kv hkv] at hb
      exact absurd hb (by simp)
    · intro t ht hb
      rw [hnb2.2 t ht] at hb
      exact absurd hb (by simp)

lemma cleanup_backup_noop {fs : FS} (hnb : NoBackup fs) : cleanup_backup fs = fs := by
  unfold cleanup_backup
  have hno : bkp ∉ fs.dirs := by
    intro hm
    have hc := hnb.2 _ hm
    rw [isBackupB_bkp] at hc
    exact Bool.false_ne_true hc.symm
  rw [listdir_backup_none hno]

/-- Claim C5 (amended): starting from any well-formed live tree with no
pre-existing backup, `create_backup` reports success, and the round trip
`create_backup`; `restore_backup`; `cleanup_backup` with no intervening
writes leaves every non-backup path byte-identical to its original content;
provided every file selected for backup lies at most one directory deep
(the depth hypothesis, which a `sensors/sensors` nesting violates), no
backup file or directory remains afterwards. -/
theorem C5_amended_roundtrip (fs : FS) (fuel : Nat) (hwf : Wf fs) (hnb : NoBackup fs)
    (hdepth : ∀ pr ∈ list_python_files (mkBackupDir fs) fuel ".",
      slashes pr.2.data ≤ 1) :
    (create_backup fuel fs).2 = true ∧
    (∀ p, isBackupB p = false →
      lookupA (cleanup_backup (restore_backup (create_backup fuel fs).1).1).files p
        = lookupA fs.files p) ∧
    NoBackup (cleanup_backup (restore_backup (create_backup fuel fs).1).1) := by
  rcases create_backup_spec hwf hnb fuel hdepth with ⟨hflag, hinv1, hbkp1⟩
  rcases restore_backup_spec hinv1 hbkp1 with ⟨hinv2, hcase⟩
  rcases hcase with hbkp2 | hnb2
  · rcases cleanup_backup_spec hinv2 hbkp2 with ⟨hinv3, hnb3⟩
    exact ⟨hflag, fun p hp => hinv3.live p hp, hnb3⟩
  · rw [cleanup_backup_noop hnb2]
    exact ⟨hflag, fun p hp => hinv2.live p hp, hnb2⟩

/-- A small live tree exercising the round trip: a root-level `main.py` and
a `sensors/x.py` inside the `sensors` directory. -/
def wFS : FS :=
  { files := [("main.py".data, "A"), ("sensors".data ++ '/' :: "x.py".data, "X")],
    dirs := ["sensors".data] }

theorem C5_amended_roundtrip_witness :
    Wf wFS ∧ NoBackup wFS ∧
      (∀ pr ∈ list_python_files (mkBackupDir wFS) 5 ".", slashes pr.2.data ≤ 1) ∧
      ((create_backup 5 wFS).2 = true ∧
        (∀ p, isBackupB p = false →
          lookupA (cleanup_backup (restore_backup (create_backup 5 wFS).1).1).files p
            = lookupA wFS.files p) ∧
        NoBackup (cleanup_backup (restore_backup (create_backup 5 wFS).1).1)) :=
  ⟨by unfold Wf; decide, by unfold NoBackup; decide, by decide,
    C5_amended_roundtrip wFS 5 (by unfold Wf; decide) (by unfold NoBackup; decide)
      (by decide)⟩

end UpdaterUtils
